import Mathlib

/-!
Verification of the sparse Python-indexing engine (src/engine.py, src/parser.py).

The development is a shallow embedding of the two source modules:

* Python strings are Lean `String`s; character-level Python operations
  (slicing, lower-casing, substring tests, str.split, str.join) are modelled
  by explicit functions over `List Char` so that everything kernel-evaluates.
* `pathlib.Path` values are modelled as lists of path components of the
  already-`resolve()`d absolute path (`PyPath`); `Path.stem`,
  `Path.with_suffix("")`, `Path.relative_to` and `str(path)` are modelled
  component-wise, following the CPython implementations.
* Python `dict`s are modelled as association lists with insertion-order
  semantics: assignment to an existing key updates the value in place
  (keeping the key's original position), assignment to a fresh key appends.
* Python exceptions are modelled by returning `Engine × Option PyErr`: the
  second component records a raised exception; the first component is the
  engine object's state at that moment (in Python the object survives an
  exception raised inside a method).
* The filesystem is a function from paths to file entries; `ast.parse`
  failures (SyntaxError) are the `unparseable` entry.
* The Python AST is embedded as `PyStmt`; each statement carries the
  `ast.Name` occurrences appearing in its own (non-statement) expressions,
  and the traversal-order of `ast.walk` (breadth-first in CPython) is
  abstracted to a depth-first flattening: no theorem below depends on the
  order of the collected reference list, only on its members and length.
-/

namespace PyLsp

/-- Python `str.lower()` (modelled as per-character lower-casing). -/
def pyLower (s : String) : String :=
  ⟨s.data.map Char.toLower⟩

/-- Substring test on char lists: does `needle` occur contiguously in `hay`?
Models Python's `needle in hay` for strings (true for the empty needle). -/
def listContainsSub (needle hay : List Char) : Bool :=
  match hay with
  | [] => needle.isEmpty
  | _ :: rest => needle.isPrefixOf hay || listContainsSub needle rest

/-- Python `needle in hay` on strings. -/
def pyStrContains (hay needle : String) : Bool :=
  listContainsSub needle.data hay.data

/-- Python `sep.join(parts)` (specialised to the equations of str.join). -/
def pyJoin (sep : String) : List String → String
  | [] => ""
  | [x] => x
  | x :: y :: rest => x ++ sep ++ pyJoin sep (y :: rest)

/-- Python `s.split(sep)` for a one-character separator, on char lists.
`split` never returns an empty list: splitting the empty string gives
a single empty field. -/
def splitChar (sep : Char) : List Char → List (List Char)
  | [] => [[]]
  | c :: rest =>
    let r := splitChar sep rest
    if c = sep then [] :: r
    else
      match r with
      | [] => [[c]]
      | x :: xs => (c :: x) :: xs

/-- Python `s.split(".")`. -/
def pySplitDot (s : String) : List String :=
  (splitChar '.' s.data).map fun cs => ⟨cs⟩

/-- Python slice `s[:m]` for an `int` bound `m` (negative bounds count from
the end, clamping at zero). -/
def pySliceTo (s : String) (m : Int) : String :=
  if 0 ≤ m then ⟨s.data.take m.toNat⟩
  else ⟨s.data.take ((s.length : Int) + m).toNat⟩

/-- Index of the last occurrence of `c`, i.e. Python `s.rfind(c)` (as an
`Option` instead of the -1 sentinel). -/
def rfindChar (c : Char) (cs : List Char) : Option Nat :=
  match cs.reverse.findIdx? (· = c) with
  | none => none
  | some j => some (cs.length - 1 - j)

/-- CPython `PurePath.stem` applied to a file name: the name without its
final suffix, where a suffix is present exactly when the last dot sits at
an index `i` with `0 < i < len - 1`. -/
def pyStemOfName (name : String) : String :=
  match rfindChar '.' name.data with
  | none => name
  | some i => if 0 < i ∧ i < name.data.length - 1 then ⟨name.data.take i⟩ else name

/-- A `resolve()`d absolute path, as its list of components. -/
abbrev PyPath := List String

/-- `path.name` (final component; empty for the root path). -/
def pathName (p : PyPath) : String :=
  p.getLastD ""

/-- `path.stem`. -/
def pathStem (p : PyPath) : String :=
  pyStemOfName (pathName p)

/-- `str(path)` for an absolute path. -/
def pyPathStr (p : PyPath) : String :=
  "/" ++ pyJoin "/" p

/-- `path.with_suffix("").parts` for a relative path: the final component
loses its suffix (CPython `with_suffix` replaces the suffix determined as in
`pyStemOfName`). -/
def withSuffixStrippedParts (rel : PyPath) : PyPath :=
  match rel with
  | [] => []
  | _ => rel.dropLast ++ [pyStemOfName (rel.getLastD "")]

/-- Association-list model of a Python `dict`: assignment `d[k] = v`.
An existing key keeps its position and gets the new value; a fresh key is
appended (insertion order). -/
def dinsert {κ α : Type} [DecidableEq κ] (k : κ) (v : α) : List (κ × α) → List (κ × α)
  | [] => [(k, v)]
  | (k', v') :: rest => if k' = k then (k', v) :: rest else (k', v') :: dinsert k v rest

/-- `d.get(k)` / `k in d`. -/
def dlookup {κ α : Type} [DecidableEq κ] (k : κ) : List (κ × α) → Option α
  | [] => none
  | (k', v') :: rest => if k' = k then some v' else dlookup k rest

/-- `d.setdefault(k, []).append(v)` for a dict of lists. -/
def dappend {κ α : Type} [DecidableEq κ] (k : κ) (v : α) : List (κ × List α) → List (κ × List α)
  | [] => [(k, [v])]
  | (k', vs) :: rest => if k' = k then (k', vs ++ [v]) :: rest else (k', vs) :: dappend k v rest

/-- `d.values()` in insertion order. -/
def dvalues {κ α : Type} (d : List (κ × α)) : List α :=
  d.map Prod.snd

/-!  ## parser.py: data model -/

/-- parser.SymbolDefinition. -/
structure SymbolDefinition where
  parent_qualified_name : Option String
  name : String
  kind : String
  type_ann : Option String
  file_path : PyPath
  line : Nat
  column : Nat
  docstring : Option String
  init_docstring : Option String
  full_source : Option String
  qualified_name : String
deriving DecidableEq, Repr

/-- parser.OutlineNode: a SymbolDefinition with nested children. -/
inductive OutlineNode where
  | mk (symbol : SymbolDefinition) (children : List OutlineNode)

/-- The node's symbol. -/
def OutlineNode.symbol : OutlineNode → SymbolDefinition
  | .mk s _ => s

/-- The node's children. -/
def OutlineNode.children : OutlineNode → List OutlineNode
  | .mk _ c => c

/-- parser.SymbolReference. -/
structure SymbolReference where
  symbol : String
  file_path : PyPath
  line : Nat
  column : Nat
  context : Option String
deriving DecidableEq, Repr

/-- parser._compute_module_qualified_name: project-root-relative dotted
module name; falls back to the bare stem when the file is not under the
root (`relative_to` raising ValueError). -/
def compute_module_qualified_name (file_path : PyPath) (project_root : Option PyPath) : String :=
  match project_root with
  | some root =>
    if root.isPrefixOf file_path then
      pyJoin "." (withSuffixStrippedParts (file_path.drop root.length))
    else
      pathStem file_path
  | none => pathStem file_path

/-- A name occurrence (an `ast.Name` node): identifier, 1-based line,
0-based column. -/
structure NameOcc where
  id : String
  lineno : Nat
  col_offset : Nat
deriving DecidableEq, Repr

/-- An assignment target: either an `ast.Name` or anything else (tuple
patterns, attributes, subscripts — ignored by the walker). -/
inductive AssignTarget where
  | name (id : String)
  | other
deriving DecidableEq, Repr

/-- Embedded Python statement.  Each constructor carries the source
location, the `ast.get_source_segment` text of the statement, and the
`ast.Name` occurrences contained in the statement's own expressions.
`functionDef` covers both `ast.FunctionDef` and `ast.AsyncFunctionDef`
(the source treats the two identically).  `other` covers every statement
kind the walker does not descend into (if/while/try/imports/expressions
...); its `names` field carries all `ast.Name` occurrences anywhere inside
it, since `ast.walk` still visits them. -/
inductive PyStmt where
  | classDef (name : String) (lineno col_offset : Nat) (doc : Option String)
      (src : String) (names : List NameOcc) (body : List PyStmt)
  | functionDef (name : String) (lineno col_offset : Nat) (doc : Option String)
      (src : String) (names : List NameOcc) (body : List PyStmt)
  | assign (targets : List AssignTarget) (lineno col_offset : Nat)
      (src : String) (names : List NameOcc)
  | annAssign (target : AssignTarget) (ann : Option String)
      (lineno col_offset : Nat) (src : String) (names : List NameOcc)
  | other (names : List NameOcc)

mutual

/-- All `ast.Name` occurrences in a statement (what `ast.walk` visits;
traversal order abstracted). -/
def stmtNames : PyStmt → List NameOcc
  | .classDef _ _ _ _ _ ns body => ns ++ bodyNames body
  | .functionDef _ _ _ _ _ ns body => ns ++ bodyNames body
  | .assign _ _ _ _ ns => ns
  | .annAssign _ _ _ _ _ ns => ns
  | .other ns => ns

/-- All `ast.Name` occurrences in a statement list. -/
def bodyNames : List PyStmt → List NameOcc
  | [] => []
  | s :: rest => stmtNames s ++ bodyNames rest

end

/-- The text, module docstring and body of one parseable source file
(the result of `ast.parse` on its text). -/
structure PyModuleSrc where
  text : String
  doc : Option String
  body : List PyStmt

/-- parser._extract_context_window (Python `splitlines` abstracted to
splitting on the newline character; the context string is computed but
never exposed by any engine response). -/
def extract_context_window (text : String) (line : Nat) (window : Nat) : String :=
  let lines := (splitChar '\n' text.data).map fun cs => (⟨cs⟩ : String)
  let idx := line - 1
  let start := idx - window
  let stop := min lines.length (idx + window + 1)
  pyJoin "\n" ((lines.take stop).drop start)

/-- The `__init__` docstring scan in parse_python_file's ClassDef branch:
the docstring of the first (a)sync function named `__init__` in the
immediate class body. -/
def findInitDoc : List PyStmt → Option String
  | [] => none
  | .functionDef n _ _ d _ _ _ :: rest => if n = "__init__" then d else findInitDoc rest
  | _ :: rest => findInitDoc rest

/-- The SymbolDefinition built for one `ast.Name` target of an Assign. -/
def assign_symbol (fp : PyPath) (parent_qualified_name : String) (id : String)
    (lineno col_offset : Nat) (src : String) : SymbolDefinition :=
  { parent_qualified_name := some parent_qualified_name
    name := id
    kind := "variable"
    type_ann := none
    file_path := fp
    line := lineno
    column := col_offset
    docstring := none
    init_docstring := none
    full_source := some src
    qualified_name := parent_qualified_name ++ "." ++ id }

/-- The Assign branch of walk_body: one variable definition and outline
node per `ast.Name` target, in target order. -/
def assign_target_defs (fp : PyPath) (parent_qualified_name : String)
    (lineno col_offset : Nat) (src : String) :
    List AssignTarget → List (String × SymbolDefinition) →
      List (String × SymbolDefinition) × List OutlineNode
  | [], defs => (defs, [])
  | .other :: rest, defs =>
      assign_target_defs fp parent_qualified_name lineno col_offset src rest defs
  | .name id :: rest, defs =>
      let var_def := assign_symbol fp parent_qualified_name id lineno col_offset src
      let (d, ns) := assign_target_defs fp parent_qualified_name lineno col_offset src rest
        (dinsert (parent_qualified_name ++ "." ++ id) var_def defs)
      (d, OutlineNode.mk var_def [] :: ns)

/-- The SymbolDefinition built for an ast.ClassDef. -/
def class_symbol (fp : PyPath) (parent_qualified_name : String) (name : String)
    (lineno col_offset : Nat) (doc : Option String) (src : String)
    (body : List PyStmt) : SymbolDefinition :=
  { parent_qualified_name := some parent_qualified_name
    name := name
    kind := "class"
    type_ann := none
    file_path := fp
    line := lineno
    column := col_offset
    docstring := doc
    init_docstring := findInitDoc body
    full_source := some src
    qualified_name := parent_qualified_name ++ "." ++ name }

/-- The SymbolDefinition built for an ast.FunctionDef / AsyncFunctionDef. -/
def function_symbol (fp : PyPath) (parent_qualified_name : String) (name : String)
    (lineno col_offset : Nat) (doc : Option String) (src : String) : SymbolDefinition :=
  { parent_qualified_name := some parent_qualified_name
    name := name
    kind := "function"
    type_ann := none
    file_path := fp
    line := lineno
    column := col_offset
    docstring := doc
    init_docstring := none
    full_source := some src
    qualified_name := parent_qualified_name ++ "." ++ name }

/-- The SymbolDefinition built for an ast.AnnAssign with a Name target. -/
def ann_symbol (fp : PyPath) (parent_qualified_name : String) (id : String)
    (ann : Option String) (lineno col_offset : Nat) (src : String) :
    SymbolDefinition :=
  { parent_qualified_name := some parent_qualified_name
    name := id
    kind := "variable"
    type_ann := ann
    file_path := fp
    line := lineno
    column := col_offset
    docstring := none
    init_docstring := none
    full_source := some src
    qualified_name := parent_qualified_name ++ "." ++ id }

mutual

/-- walk_body of parse_python_file, for one statement: returns the updated
definitions dict and the outline nodes to append to the parent's children
(zero, one, or — for a multi-target assignment — several). -/
def walk_stmt (fp : PyPath) (parent_qualified_name : String)
    (defs : List (String × SymbolDefinition)) :
    PyStmt → List (String × SymbolDefinition) × List OutlineNode
  | .classDef name lineno col_offset doc src _ body =>
      let cls_def := class_symbol fp parent_qualified_name name lineno col_offset doc src body
      let (d, children) := walk_body fp (parent_qualified_name ++ "." ++ name)
        (dinsert (parent_qualified_name ++ "." ++ name) cls_def defs) body
      (d, [OutlineNode.mk cls_def children])
  | .functionDef name lineno col_offset doc src _ body =>
      let fn_def := function_symbol fp parent_qualified_name name lineno col_offset doc src
      let (d, children) := walk_body fp (parent_qualified_name ++ "." ++ name)
        (dinsert (parent_qualified_name ++ "." ++ name) fn_def defs) body
      (d, [OutlineNode.mk fn_def children])
  | .assign targets lineno col_offset src _ =>
      assign_target_defs fp parent_qualified_name lineno col_offset src targets defs
  | .annAssign target ann lineno col_offset src _ =>
      match target with
      | .name id =>
          let var_def := ann_symbol fp parent_qualified_name id ann lineno col_offset src
          (dinsert (parent_qualified_name ++ "." ++ id) var_def defs,
            [OutlineNode.mk var_def []])
      | .other => (defs, [])
  | .other _ => (defs, [])

/-- walk_body of parse_python_file over a statement list: threads the
definitions dict left-to-right and concatenates the produced outline
children in statement order. -/
def walk_body (fp : PyPath) (parent_qualified_name : String)
    (defs : List (String × SymbolDefinition)) :
    List PyStmt → List (String × SymbolDefinition) × List OutlineNode
  | [] => (defs, [])
  | s :: rest =>
      let (d1, ns) := walk_stmt fp parent_qualified_name defs s
      let (d2, ms) := walk_body fp parent_qualified_name d1 rest
      (d2, ns ++ ms)

end

/-- The triple returned by parse_python_file. -/
structure ParseOutput where
  module_node : OutlineNode
  definitions : List (String × SymbolDefinition)
  references : List SymbolReference

/-- The module-level SymbolDefinition built by parse_python_file. -/
def module_symbol (file_path : PyPath) (module_qualname : String)
    (m : PyModuleSrc) : SymbolDefinition :=
  { parent_qualified_name := none
    name := (pySplitDot module_qualname).getLastD ""
    kind := "module"
    type_ann := none
    file_path := file_path
    line := 1
    column := 0
    docstring := m.doc
    init_docstring := none
    full_source := some m.text
    qualified_name := module_qualname }

/-- parser.parse_python_file on the (already `ast.parse`d) content of one
file: module definition, walked body, and one SymbolReference per
`ast.Name` occurrence. -/
def parse_python_file (file_path : PyPath) (project_root : Option PyPath)
    (m : PyModuleSrc) : ParseOutput :=
  let module_qualname := compute_module_qualified_name file_path project_root
  let module_def := module_symbol file_path module_qualname m
  let defs0 := [(module_qualname, module_def)]
  let (definitions, children) := walk_body file_path module_qualname defs0 m.body
  let module_node := OutlineNode.mk module_def children
  let references := (bodyNames m.body).map fun occ =>
    { symbol := occ.id
      file_path := file_path
      line := occ.lineno
      column := occ.col_offset
      context := some (extract_context_window m.text occ.lineno 1) : SymbolReference }
  ⟨module_node, definitions, references⟩

/-!  ## engine.py -/

/-- engine.MAX_CHARS_HARD_LIMIT. -/
def MAX_CHARS_HARD_LIMIT : Int := 1500

/-- What the filesystem holds at a path: nothing, a file whose text
`ast.parse` rejects (SyntaxError), or a parseable file.  `size` models
`stat().st_size`. -/
inductive FileEntry where
  | absent
  | unparseable (size : Nat)
  | source (size : Nat) (m : PyModuleSrc)

/-- The local filesystem, fixed for the lifetime of a run. -/
abbrev FileSystem := PyPath → FileEntry

/-- `path.stat().st_size`, with the source's OSError fallback to 0. -/
def statSize (fs : FileSystem) (p : PyPath) : Nat :=
  match fs p with
  | .absent => 0
  | .unparseable sz => sz
  | .source sz _ => sz

/-- engine.LSPEngine's mutable state (field names follow the source; the
leading underscore of private attributes is dropped). -/
structure LSPEngine where
  project_root : PyPath
  max_eager_files : Nat
  max_eager_bytes : Nat
  outline_index : List (PyPath × OutlineNode)
  symbol_index : List (String × SymbolDefinition)
  symbols_by_simple_name : List (String × List String)
  references : List SymbolReference
  refs_by_symbol : List (String × List SymbolReference)
  node_index : List (String × OutlineNode)
  all_files : List PyPath
  file_sizes : List (PyPath × Nat)
  total_bytes : Nat
  indexed_files : List PyPath

/-- A raised Python exception escaping an engine method (the only kind the
indexing path can raise is the SyntaxError of `ast.parse`). -/
inductive PyErr where
  | syntaxError (path : PyPath)
deriving DecidableEq, Repr

/-- LSPEngine._discover_files: the rglob enumeration order is external
input; each discovered path is recorded with its stat size (OSError → 0)
and the sizes are totalled. -/
def discover_files (fs : FileSystem) (rglobbed : List PyPath) :
    List PyPath × List (PyPath × Nat) × Nat :=
  (rglobbed, rglobbed.map (fun p => (p, statSize fs p)), (rglobbed.map (statSize fs)).sum)

mutual

/-- LSPEngine._register_outline_node: insert the node under its qualified
name, then its children, depth first. -/
def register_outline_node (node : OutlineNode) (idx : List (String × OutlineNode)) :
    List (String × OutlineNode) :=
  match node with
  | .mk sym children =>
      register_outline_nodes children (dinsert sym.qualified_name (.mk sym children) idx)

/-- The recursive calls of _register_outline_node over a child list. -/
def register_outline_nodes (ns : List OutlineNode) (idx : List (String × OutlineNode)) :
    List (String × OutlineNode) :=
  match ns with
  | [] => idx
  | n :: rest => register_outline_nodes rest (register_outline_node n idx)

end

/-- LSPEngine._register_definition. -/
def register_definition (e : LSPEngine) (defn : SymbolDefinition) : LSPEngine :=
  { e with
    symbol_index := dinsert defn.qualified_name defn e.symbol_index
    symbols_by_simple_name := dappend defn.name defn.qualified_name e.symbols_by_simple_name }

/-- LSPEngine._register_reference. -/
def register_reference (e : LSPEngine) (ref : SymbolReference) : LSPEngine :=
  { e with
    references := e.references ++ [ref]
    refs_by_symbol := dappend ref.symbol ref e.refs_by_symbol }

/-- LSPEngine._index_file.  Paths are modelled as already `resolve()`d.
A SyntaxError raised by the parser propagates (second component) before
any index map has been touched. -/
def index_file (fs : FileSystem) (e : LSPEngine) (file_path : PyPath) :
    LSPEngine × Option PyErr :=
  if file_path ∈ e.indexed_files then (e, none)
  else
    match fs file_path with
    | .absent => (e, none)
    | .unparseable _ => (e, some (.syntaxError file_path))
    | .source _ m =>
        let out := parse_python_file file_path (some e.project_root) m
        let e1 := { e with
          outline_index := dinsert file_path out.module_node e.outline_index
          indexed_files := e.indexed_files ++ [file_path] }
        let e2 := { e1 with node_index := register_outline_node out.module_node e1.node_index }
        let e3 := (dvalues out.definitions).foldl register_definition e2
        let e4 := out.references.foldl register_reference e3
        (e4, none)

/-- The `for file_path in to_index` loop: a raised exception aborts the
loop, keeping the state mutated so far. -/
def index_all (fs : FileSystem) (e : LSPEngine) : List PyPath → LSPEngine × Option PyErr
  | [] => (e, none)
  | p :: rest =>
      match index_file fs e p with
      | (e1, none) => index_all fs e1 rest
      | (e1, some err) => (e1, some err)

/-- Stable insertion: models the placement performed by Python's stable
`sorted` for the element `x` arriving after the already-sorted `l`, with
`lt` the strict key comparison. -/
def pyInsertBy {α : Type} (lt : α → α → Bool) (x : α) : List α → List α
  | [] => [x]
  | y :: ys => if lt y x then y :: pyInsertBy lt x ys else x :: y :: ys

/-- Python's `sorted(l, key=...)`: the unique stable ascending
rearrangement of `l` (equal keys keep their original relative order),
realised as a stable insertion sort. -/
def pySortBy {α : Type} (lt : α → α → Bool) : List α → List α
  | [] => []
  | x :: xs => pyInsertBy lt x (pySortBy lt xs)

/-- `self._file_sizes.get(p, 0)`. -/
def size_of_file (e : LSPEngine) (p : PyPath) : Nat :=
  (dlookup p e.file_sizes).getD 0

/-- LSPEngine._initial_index: sort ascending by size; take everything when
both eager budgets hold, else the smallest `max_eager_files` files. -/
def initial_index (fs : FileSystem) (e : LSPEngine) : LSPEngine × Option PyErr :=
  if e.all_files = [] then (e, none)
  else
    let files_sorted := pySortBy (fun p q => size_of_file e p < size_of_file e q) e.all_files
    let to_index :=
      if e.all_files.length ≤ e.max_eager_files ∧ e.total_bytes ≤ e.max_eager_bytes then
        files_sorted
      else
        files_sorted.take e.max_eager_files
    index_all fs e to_index

/-- LSPEngine.__init__: record the constructor arguments, discover files,
run the initial index.  A parse failure during eager indexing propagates
out of the constructor. -/
def lsp_engine_init (fs : FileSystem) (rglobbed : List PyPath) (project_root : PyPath)
    (max_eager_files : Nat := 200) (max_eager_bytes : Nat := 5000000) :
    LSPEngine × Option PyErr :=
  let (all_files, file_sizes, total_bytes) := discover_files fs rglobbed
  initial_index fs
    { project_root := project_root
      max_eager_files := max_eager_files
      max_eager_bytes := max_eager_bytes
      outline_index := []
      symbol_index := []
      symbols_by_simple_name := []
      references := []
      refs_by_symbol := []
      node_index := []
      all_files := all_files
      file_sizes := file_sizes
      total_bytes := total_bytes
      indexed_files := [] }

/-- LSPEngine._ensure_file_indexed. -/
def ensure_file_indexed (fs : FileSystem) (e : LSPEngine) (p : PyPath) :
    LSPEngine × Option PyErr :=
  if p ∈ e.indexed_files then (e, none)
  else
    let e1 :=
      if p ∈ e.all_files then e
      else { e with
        all_files := e.all_files ++ [p]
        file_sizes := dinsert p (statSize fs p) e.file_sizes }
    index_file fs e1 p

/-- The resolvability test `symbol in self.symbol_index or symbol in
self._symbols_by_simple_name` used by _ensure_symbol_indexed (both on
entry and as the loop's break condition). -/
def symbol_resolvable (e : LSPEngine) (symbol : String) : Bool :=
  (dlookup symbol e.symbol_index).isSome || (dlookup symbol e.symbols_by_simple_name).isSome

/-- The two-key sort key of _ensure_symbol_indexed: (0 if the lowered
symbol occurs in the lowered filename stem else 1, file size). -/
def score (e : LSPEngine) (symbol : String) (p : PyPath) : Nat × Nat :=
  let stem := pyLower (pathStem p)
  ((if pyStrContains stem (pyLower symbol) then 0 else 1), size_of_file e p)

/-- Strict lexicographic comparison of two sort keys (Python tuple <). -/
def scoreLt (a b : Nat × Nat) : Bool :=
  a.1 < b.1 || (a.1 = b.1 && a.2 < b.2)

/-- The `for path in sorted(remaining, key=score)` loop of
_ensure_symbol_indexed: index one file, break once the symbol resolves. -/
def scan_for_symbol (fs : FileSystem) (symbol : String) :
    LSPEngine → List PyPath → LSPEngine × Option PyErr
  | e, [] => (e, none)
  | e, p :: rest =>
      match index_file fs e p with
      | (e1, some err) => (e1, some err)
      | (e1, none) =>
          if symbol_resolvable e1 symbol then (e1, none)
          else scan_for_symbol fs symbol e1 rest

/-- LSPEngine._ensure_symbol_indexed. -/
def ensure_symbol_indexed (fs : FileSystem) (e : LSPEngine) (symbol : String) :
    LSPEngine × Option PyErr :=
  if symbol_resolvable e symbol then (e, none)
  else
    let remaining := e.all_files.filter fun p => decide (p ∉ e.indexed_files)
    if remaining = [] then (e, none)
    else
      scan_for_symbol fs symbol e
        (pySortBy (fun p q => scoreLt (score e symbol p) (score e symbol q)) remaining)

/-- LSPEngine._resolve_symbol_qualified_name: exact qualified hit wins,
else the first entry of the simple-name collision list (Python indexes
`[0]`; the lists are nonempty by construction, modelled by head?). -/
def resolve_symbol_qualified_name (e : LSPEngine) (symbol : String) : Option String :=
  if (dlookup symbol e.symbol_index).isSome then some symbol
  else
    match dlookup symbol e.symbols_by_simple_name with
    | some qs => qs.head?
    | none => none

/-- The docstring truncation pattern used by get_definition_short and
_serialize_outline_node: `if doc and len(doc) > max_chars: doc =
doc[:max_chars] + "…"` (the falsy test keeps None and the empty string
unchanged). -/
def truncate_doc (doc : Option String) (max_chars : Int) : Option String :=
  match doc with
  | none => none
  | some d =>
      if d ≠ "" ∧ (d.length : Int) > max_chars then some (pySliceTo d max_chars ++ "…")
      else some d

/-- The dict returned by get_definition_short (qualified name, line and
column are commented out in the source and hence absent). -/
structure ShortDefinition where
  name : String
  kind : String
  type : Option String
  file_path : String
  docstring : Option String
  init_docstring : Option String
deriving DecidableEq, Repr

/-- The dict returned by get_definition_full. -/
structure FullDefinition where
  name : String
  kind : String
  type : Option String
  file_path : String
  line : Nat
  column : Nat
  docstring : Option String
  init_docstring : Option String
  source : String
deriving DecidableEq, Repr

/-- A public operation's outcome: the returned value, the engine state
afterwards, and a raised exception if any (in which case nothing was
returned to the caller and `result` is the "not found" default). -/
structure QueryOut (α : Type) where
  result : α
  engine : LSPEngine
  err : Option PyErr

/-- LSPEngine.get_definition_short. -/
def get_definition_short (fs : FileSystem) (e : LSPEngine)
    (symbol : Option String := none) (file_path : Option PyPath := none)
    (max_chars : Int := 1000) : QueryOut (Option ShortDefinition) :=
  let mc := min MAX_CHARS_HARD_LIMIT max_chars
  let shape : SymbolDefinition → ShortDefinition := fun defn =>
    { name := defn.name
      kind := defn.kind
      type := defn.type_ann
      file_path := pyPathStr defn.file_path
      docstring := truncate_doc defn.docstring mc
      init_docstring := truncate_doc defn.init_docstring mc }
  match symbol with
  | some s =>
      match ensure_symbol_indexed fs e s with
      | (e1, some err) => ⟨none, e1, some err⟩
      | (e1, none) =>
          match resolve_symbol_qualified_name e1 s with
          | none => ⟨none, e1, none⟩
          | some qualname =>
              match dlookup qualname e1.symbol_index with
              | none => ⟨none, e1, none⟩
              | some defn => ⟨some (shape defn), e1, none⟩
  | none =>
      match file_path with
      | some fp =>
          match ensure_file_indexed fs e fp with
          | (e1, some err) => ⟨none, e1, some err⟩
          | (e1, none) =>
              match dlookup fp e1.outline_index with
              | none => ⟨none, e1, none⟩
              | some node => ⟨some (shape node.symbol), e1, none⟩
      | none => ⟨none, e, none⟩

/-- LSPEngine.get_definition_full. -/
def get_definition_full (fs : FileSystem) (e : LSPEngine)
    (symbol : Option String := none) (file_path : Option PyPath := none)
    (max_chars : Int := 5000) : QueryOut (Option FullDefinition) :=
  let mc := min MAX_CHARS_HARD_LIMIT max_chars
  let shape : SymbolDefinition → FullDefinition := fun defn =>
    let source := defn.full_source.getD ""
    let source :=
      if (source.length : Int) > mc then pySliceTo source mc ++ "\n…(truncated)"
      else source
    { name := defn.name
      kind := defn.kind
      type := defn.type_ann
      file_path := pyPathStr defn.file_path
      line := defn.line
      column := defn.column
      docstring := defn.docstring
      init_docstring := defn.init_docstring
      source := source }
  match symbol with
  | some s =>
      match ensure_symbol_indexed fs e s with
      | (e1, some err) => ⟨none, e1, some err⟩
      | (e1, none) =>
          match resolve_symbol_qualified_name e1 s with
          | none => ⟨none, e1, none⟩
          | some qualname =>
              match dlookup qualname e1.symbol_index with
              | none => ⟨none, e1, none⟩
              | some defn => ⟨some (shape defn), e1, none⟩
  | none =>
      match file_path with
      | some fp =>
          match ensure_file_indexed fs e fp with
          | (e1, some err) => ⟨none, e1, some err⟩
          | (e1, none) =>
              match dlookup fp e1.outline_index with
              | none => ⟨none, e1, none⟩
              | some node => ⟨some (shape node.symbol), e1, none⟩
      | none => ⟨none, e, none⟩

/-- The dict built by _serialize_outline_node (qualified name commented
out in the source). -/
structure SerializedNode where
  name : String
  kind : String
  type : Option String
  file_path : String
  line : Nat
  column : Nat
  docstring : Option String
  init_docstring : Option String
  children : List SerializedNode

mutual

/-- LSPEngine._serialize_outline_node (the hard cap is re-applied at every
recursion level; it is idempotent). -/
def serialize_outline_node (node : OutlineNode) (max_chars : Int) : SerializedNode :=
  match node with
  | .mk defn children =>
      let mc := min MAX_CHARS_HARD_LIMIT max_chars
      { name := defn.name
        kind := defn.kind
        type := defn.type_ann
        file_path := pyPathStr defn.file_path
        line := defn.line
        column := defn.column
        docstring := truncate_doc defn.docstring mc
        init_docstring := truncate_doc defn.init_docstring mc
        children := serialize_outline_children children mc }

/-- The list comprehension over `node.children`. -/
def serialize_outline_children (ns : List OutlineNode) (max_chars : Int) :
    List SerializedNode :=
  match ns with
  | [] => []
  | n :: rest => serialize_outline_node n max_chars :: serialize_outline_children rest max_chars

end

/-- LSPEngine.get_outline: resolve to a node, return its serialized
children (empty list on any resolution failure). -/
def get_outline (fs : FileSystem) (e : LSPEngine)
    (symbol : Option String := none) (file_path : Option PyPath := none)
    (max_chars : Int := 1000) : QueryOut (List SerializedNode) :=
  let mc := min MAX_CHARS_HARD_LIMIT max_chars
  match symbol with
  | some s =>
      match ensure_symbol_indexed fs e s with
      | (e1, some err) => ⟨[], e1, some err⟩
      | (e1, none) =>
          match resolve_symbol_qualified_name e1 s with
          | none => ⟨[], e1, none⟩
          | some qualname =>
              match dlookup qualname e1.node_index with
              | none => ⟨[], e1, none⟩
              | some node => ⟨serialize_outline_children node.children mc, e1, none⟩
  | none =>
      match file_path with
      | some fp =>
          match ensure_file_indexed fs e fp with
          | (e1, some err) => ⟨[], e1, some err⟩
          | (e1, none) =>
              match dlookup fp e1.outline_index with
              | none => ⟨[], e1, none⟩
              | some node => ⟨serialize_outline_children node.children mc, e1, none⟩
      | none => ⟨[], e, none⟩

/-- The dict built per reference by get_references: the context string is
truncated in the loop but the returned dict omits it (commented out in the
source). -/
structure RefEntry where
  symbol : String
  file_path : String
  line : Nat
  column : Nat
deriving DecidableEq, Repr

/-- The per-reference output shaping of get_references. -/
def refEntryOf (r : SymbolReference) : RefEntry :=
  ⟨r.symbol, pyPathStr r.file_path, r.line, r.column⟩

/-- LSPEngine.get_references: symbol mode reads the per-symbol reference
table; file mode filters the full reference list by owning file. -/
def get_references (fs : FileSystem) (e : LSPEngine)
    (symbol : Option String := none) (file_path : Option PyPath := none)
    (max_chars : Int := 300) : QueryOut (List RefEntry) :=
  let _ := min MAX_CHARS_HARD_LIMIT max_chars
  match symbol with
  | some s =>
      match ensure_symbol_indexed fs e s with
      | (e1, some err) => ⟨[], e1, some err⟩
      | (e1, none) => ⟨((dlookup s e1.refs_by_symbol).getD []).map refEntryOf, e1, none⟩
  | none =>
      match file_path with
      | some fp =>
          match ensure_file_indexed fs e fp with
          | (e1, some err) => ⟨[], e1, some err⟩
          | (e1, none) =>
              ⟨(e1.references.filter fun r => decide (r.file_path = fp)).map refEntryOf,
                e1, none⟩
      | none => ⟨[], e, none⟩

/-!  ## Helper lemmas -/

theorem foldl_register_definition_indexed_files (l : List SymbolDefinition) (e : LSPEngine) :
    (l.foldl register_definition e).indexed_files = e.indexed_files := by
  induction l generalizing e with
  | nil => rfl
  | cons d rest ih => simpa [register_definition] using ih _

theorem foldl_register_reference_indexed_files (l : List SymbolReference) (e : LSPEngine) :
    (l.foldl register_reference e).indexed_files = e.indexed_files := by
  induction l generalizing e with
  | nil => rfl
  | cons r rest ih => simpa [register_reference] using ih _

theorem index_file_indexed_of_ok (fs : FileSystem) (e : LSPEngine) (p : PyPath)
    (e1 : LSPEngine) (h : index_file fs e p = (e1, none)) :
    e1.indexed_files = e.indexed_files ∨ e1.indexed_files = e.indexed_files ++ [p] := by
  by_cases hidx : p ∈ e.indexed_files
  · simp only [index_file, if_pos hidx, Prod.mk.injEq] at h
    exact Or.inl (h.1 ▸ rfl)
  · cases hfs : fs p with
    | absent =>
        simp only [index_file, if_neg hidx, hfs, Prod.mk.injEq] at h
        exact Or.inl (h.1 ▸ rfl)
    | unparseable sz =>
        simp [index_file, if_neg hidx, hfs] at h
    | source sz m =>
        simp only [index_file, if_neg hidx, hfs, Prod.mk.injEq] at h
        right
        rw [← h.1]
        rw [foldl_register_reference_indexed_files, foldl_register_definition_indexed_files]

theorem index_file_mem_or_absent (fs : FileSystem) (e : LSPEngine) (p : PyPath)
    (e1 : LSPEngine) (h : index_file fs e p = (e1, none)) :
    p ∈ e1.indexed_files ∨ fs p = .absent := by
  by_cases hidx : p ∈ e.indexed_files
  · simp only [index_file, if_pos hidx, Prod.mk.injEq] at h
    exact Or.inl (h.1 ▸ hidx)
  · cases hfs : fs p with
    | absent => exact Or.inr rfl
    | unparseable sz => simp [index_file, if_neg hidx, hfs] at h
    | source sz m =>
        simp only [index_file, if_neg hidx, hfs, Prod.mk.injEq] at h
        left
        rw [← h.1, foldl_register_reference_indexed_files,
          foldl_register_definition_indexed_files]
        simp

/-- C7: indexing a file a second time leaves the whole engine state (hence
every index map: outline index, symbol table, collision table, node index,
reference list) exactly as after the first indexing, and indexing is a
no-op when the path is already indexed or when the file does not exist on
disk. -/
theorem index_file_idempotent (fs : FileSystem) (e : LSPEngine) (p : PyPath) :
    (∀ e1, index_file fs e p = (e1, none) → index_file fs e1 p = (e1, none)) ∧
    (p ∈ e.indexed_files → index_file fs e p = (e, none)) ∧
    (fs p = .absent → index_file fs e p = (e, none)) := by
  refine ⟨fun e1 h => ?_, fun hidx => by simp [index_file, hidx], fun habs => ?_⟩
  · rcases index_file_mem_or_absent fs e p e1 h with hmem | habs
    · simp [index_file, hmem]
    · by_cases hmem : p ∈ e1.indexed_files
      · simp [index_file, hmem]
      · simp [index_file, hmem, habs]
  · by_cases hidx : p ∈ e.indexed_files
    · simp [index_file, hidx]
    · simp [index_file, hidx, habs]

/-!  ## Concrete fixtures used by the witnesses

A one-file project: /proj/demo.py defines class C with an __init__ and a
module-level assignment inside the class body. -/

/-- The parsed content of the fixture file demo.py. -/
def wMod : PyModuleSrc :=
  { text := "class C:\n    x = 1\n"
    doc := some "module doc"
    body := [
      .classDef "C" 1 0 (some "C doc") "class C:\n    x = 1"
        [⟨"C", 1, 6⟩]
        [ .functionDef "__init__" 2 4 (some "init doc") "def __init__(self): pass" [] []
        , .assign [.name "x"] 3 4 "x = 1" [⟨"x", 3, 4⟩] ]
    ] }

/-- Fixture path of demo.py. -/
def wPath : PyPath := ["proj", "demo.py"]

/-- Fixture filesystem holding only demo.py. -/
def wFS : FileSystem := fun p => if p = wPath then .source 20 wMod else .absent

/-- Fixture engine: discovery done, eager budgets zero, nothing indexed. -/
def wE0 : LSPEngine := (lsp_engine_init wFS [wPath] ["proj"] 0 0).1

/-- Fixture engine after indexing demo.py once. -/
def wE1 : LSPEngine := (index_file wFS wE0 wPath).1

theorem wE0_index_ok : index_file wFS wE0 wPath = (wE1, none) := by
  have h2 : (index_file wFS wE0 wPath).2 = none := by decide
  calc index_file wFS wE0 wPath
      = ((index_file wFS wE0 wPath).1, (index_file wFS wE0 wPath).2) := rfl
    _ = (wE1, none) := by rw [h2]; rfl

/-- Witness for C7 at the fixture project: re-indexing demo.py after its
first indexing returns the state unchanged. -/
theorem index_file_idempotent_witness :
    index_file wFS wE1 wPath = (wE1, none) :=
  (index_file_idempotent wFS wE0 wPath).1 wE1 wE0_index_ok

/-- C8: in get_definition_short the symbol argument takes precedence over
file_path whenever a non-empty symbol is supplied (the file_path argument
is ignored entirely, so a non-resolving symbol cannot fall back to the
file's module definition), and the call with neither argument returns the
same "not found" value (None) as a resolution failure, with no exception
raised. -/
theorem get_definition_short_precedence (fs : FileSystem) (e : LSPEngine)
    (s : String) (_h : s ≠ "") (fp : PyPath) (k : Int) :
    get_definition_short fs e (some s) (some fp) k =
      get_definition_short fs e (some s) none k ∧
    get_definition_short fs e none none k = ⟨none, e, none⟩ :=
  ⟨rfl, rfl⟩

/-- Witness for C8 at the fixture project: the symbol "nosuch" does not
resolve, and even with the valid file path supplied the call returns None
rather than the module definition of demo.py. -/
theorem get_definition_short_precedence_witness :
    get_definition_short wFS wE1 (some "nosuch") (some wPath) 1000 =
      get_definition_short wFS wE1 (some "nosuch") none 1000 ∧
    (get_definition_short wFS wE1 (some "nosuch") (some wPath) 1000).result = none ∧
    (get_definition_short wFS wE1 none (some wPath) 1000).result ≠ none := by
  refine ⟨(get_definition_short_precedence wFS wE1 "nosuch" (by decide) wPath 1000).1, ?_, ?_⟩
  · decide
  · decide

/-!  ## Fixtures for the failure scenarios -/

/-- A syntactically broken file (ast.parse raises SyntaxError on it). -/
def c1Bad : PyPath := ["proj", "bad.py"]

/-- A well-formed file, larger than the broken one. -/
def c1Good : PyPath := ["proj", "good.py"]

/-- Filesystem with one broken file (size 1, sorts first) and one good
file (size 30). -/
def c1FS : FileSystem := fun p =>
  if p = c1Bad then .unparseable 1
  else if p = c1Good then .source 30 wMod
  else .absent

/-- The same project with zero eager budgets: discovery done, nothing
indexed. -/
def c1E0 : LSPEngine := (lsp_engine_init c1FS [c1Bad, c1Good] ["proj"] 0 0).1

/-- C1 evaluated at the failing input: with an unparseable file in the
eager subset, engine construction raises the parser's SyntaxError, the
good file discovered alongside is never indexed (indexing of other files
is aborted), and a query that lazily reaches the broken file raises as
well.  Only the "no prior state is corrupted" part of the claim holds:
_index_file raises before touching any index map, leaving the engine
exactly as it was. -/
theorem parse_failure_crashes_engine :
    (lsp_engine_init c1FS [c1Bad, c1Good] ["proj"] 200 5000000).2 =
      some (.syntaxError c1Bad) ∧
    (lsp_engine_init c1FS [c1Bad, c1Good] ["proj"] 200 5000000).1.indexed_files = [] ∧
    index_file c1FS c1E0 c1Bad = (c1E0, some (.syntaxError c1Bad)) ∧
    (get_definition_short c1FS c1E0 (some "C") none 1000).err =
      some (.syntaxError c1Bad) := by
  refine ⟨by decide, by decide, rfl, by decide⟩

/-- A file with no statements at all. -/
def emptyMod : PyModuleSrc := ⟨"", none, []⟩

/-- Filesystem for the qualified-name collision scenario: the project root
is the filesystem root and holds a/b.py as well as a file literally named
a.b.py. -/
def c4FS : FileSystem := fun p =>
  if p = ["a", "b.py"] then .source 5 emptyMod
  else if p = ["a.b.py"] then .source 6 emptyMod
  else .absent

/-- The engine over the collision project, everything eagerly indexed. -/
def c4E : LSPEngine := (lsp_engine_init c4FS [["a", "b.py"], ["a.b.py"]] [] 200 5000000).1

/-- Counterexample for C4: the two distinct files a/b.py and a.b.py both
receive the module qualified name "a.b" (dot-joined relative path vs. bare
dotted stem), so a definition of one file shares its qualified name with a
definition of the other; in the engine both files are indexed, the shared
key holds only the later file's definition, and the simple-name collision
list for "b" lists the same qualified name twice. -/
theorem qualified_name_collision_counterexample :
    ((parse_python_file ["a", "b.py"] (some []) emptyMod).definitions.map
      fun kv => (kv.1, kv.2.file_path)) = [("a.b", ["a", "b.py"])] ∧
    ((parse_python_file ["a.b.py"] (some []) emptyMod).definitions.map
      fun kv => (kv.1, kv.2.file_path)) = [("a.b", ["a.b.py"])] ∧
    (["a", "b.py"] : PyPath) ≠ ["a.b.py"] ∧
    c4E.indexed_files = [["a", "b.py"], ["a.b.py"]] ∧
    (c4E.symbol_index.map fun kv => (kv.1, kv.2.file_path)) = [("a.b", ["a.b.py"])] ∧
    dlookup "b" c4E.symbols_by_simple_name = some ["a.b", "a.b"] := by
  refine ⟨by decide, by decide, by decide, by decide, by decide, by decide⟩

/-- Counterexample for C3: for the negative requested bound
maxChars = -1, Python's `doc[:max_chars]` slices from the end, so the
returned docstring of class C ("C doc", 5 characters) becomes "C do…",
whose length exceeds min(-1, 1500) plus the marker length. -/
theorem truncation_negative_bound_counterexample :
    ((get_definition_short wFS wE1 (some "C") none (-1)).result.map
      fun r => r.docstring) = some (some ("C do" ++ "…")) ∧
    ¬ ((("C do" ++ "…").length : Int) ≤ min (-1 : Int) MAX_CHARS_HARD_LIMIT +
        ("…".length : Int)) := by
  constructor <;> decide

theorem resolvable_of_resolve (e : LSPEngine) (s q : String)
    (h : resolve_symbol_qualified_name e s = some q) : symbol_resolvable e s = true := by
  unfold resolve_symbol_qualified_name at h
  unfold symbol_resolvable
  by_cases h1 : (dlookup s e.symbol_index).isSome
  · simp [h1]
  · simp only [if_neg h1] at h
    cases h2 : dlookup s e.symbols_by_simple_name with
    | none => simp [h2] at h
    | some qs => simp [h2]

theorem ensure_symbol_indexed_of_resolvable (fs : FileSystem) (e : LSPEngine) (s : String)
    (h : symbol_resolvable e s = true) : ensure_symbol_indexed fs e s = (e, none) := by
  unfold ensure_symbol_indexed
  simp [h]

/-- The shaping applied by get_definition_short to the resolved
definition. -/
def shape_short (defn : SymbolDefinition) (mc : Int) : ShortDefinition :=
  { name := defn.name
    kind := defn.kind
    type := defn.type_ann
    file_path := pyPathStr defn.file_path
    docstring := truncate_doc defn.docstring mc
    init_docstring := truncate_doc defn.init_docstring mc }

theorem get_definition_short_symbol_inv (fs : FileSystem) (e : LSPEngine) (s : String)
    (k : Int) (r : ShortDefinition) (e1 : LSPEngine)
    (h : get_definition_short fs e (some s) none k = ⟨some r, e1, none⟩) :
    ensure_symbol_indexed fs e s = (e1, none) ∧
    ∃ q defn, resolve_symbol_qualified_name e1 s = some q ∧
      dlookup q e1.symbol_index = some defn ∧
      r = shape_short defn (min MAX_CHARS_HARD_LIMIT k) := by
  unfold get_definition_short at h
  dsimp only at h
  rcases hE : ensure_symbol_indexed fs e s with ⟨e1', err⟩
  rw [hE] at h
  cases err with
  | some err => simp at h
  | none =>
      dsimp only at h
      cases hq : resolve_symbol_qualified_name e1' s with
      | none => rw [hq] at h; simp at h
      | some q =>
          rw [hq] at h
          dsimp only at h
          cases hd : dlookup q e1'.symbol_index with
          | none => rw [hd] at h; simp at h
          | some defn =>
              rw [hd] at h
              simp only [QueryOut.mk.injEq, Option.some.injEq] at h
              obtain ⟨hr, he1, -⟩ := h
              subst he1
              exact ⟨rfl, q, defn, hq, hd, hr.symm⟩

theorem get_definition_short_stable (fs : FileSystem) (e : LSPEngine) (s : String)
    (k : Int) (r : ShortDefinition) (e1 : LSPEngine)
    (h : get_definition_short fs e (some s) none k = ⟨some r, e1, none⟩) :
    get_definition_short fs e1 (some s) none k = ⟨some r, e1, none⟩ := by
  obtain ⟨-, q, defn, hq, hd, hr⟩ := get_definition_short_symbol_inv fs e s k r e1 h
  have hE1 : ensure_symbol_indexed fs e1 s = (e1, none) :=
    ensure_symbol_indexed_of_resolvable fs e1 s (resolvable_of_resolve e1 s q hq)
  unfold get_definition_short
  dsimp only
  rw [hE1]
  dsimp only
  rw [hq]
  dsimp only
  rw [hd, hr]
  rfl

/-- C6: name resolution lets an exact qualified-name hit win; otherwise a
name present in the simple-name collision table resolves to the first
(first-indexed) entry of its list.  Consequently, when every definition
reachable for a simple name lives in one of two distinct files,
getDefinitionShort returns a single definition belonging to exactly one of
the two files, and a repeated call on the same engine returns the very
same definition with the state unchanged. -/
theorem collision_resolution_first_indexed (fs : FileSystem) (e : LSPEngine) (s : String) :
    ((dlookup s e.symbol_index).isSome → resolve_symbol_qualified_name e s = some s) ∧
    (∀ qs, dlookup s e.symbol_index = none →
      dlookup s e.symbols_by_simple_name = some qs →
      resolve_symbol_qualified_name e s = qs.head?) ∧
    (∀ k r e1,
      get_definition_short fs e (some s) none k = ⟨some r, e1, none⟩ →
      get_definition_short fs e1 (some s) none k = ⟨some r, e1, none⟩) ∧
    (∀ k r e1 (f1 f2 : PyPath),
      get_definition_short fs e (some s) none k = ⟨some r, e1, none⟩ →
      (∀ d : SymbolDefinition,
        (dlookup s e1.symbol_index = some d ∨
          ∃ qs q, dlookup s e1.symbols_by_simple_name = some qs ∧ q ∈ qs ∧
            dlookup q e1.symbol_index = some d) →
        d.file_path = f1 ∨ d.file_path = f2) →
      pyPathStr f1 ≠ pyPathStr f2 →
      ((r.file_path = pyPathStr f1 ∧ r.file_path ≠ pyPathStr f2) ∨
        (r.file_path = pyPathStr f2 ∧ r.file_path ≠ pyPathStr f1))) := by
  refine ⟨fun h1 => ?_, fun qs h1 h2 => ?_, fun k r e1 h => ?_, fun k r e1 f1 f2 h hd h12 => ?_⟩
  · unfold resolve_symbol_qualified_name
    simp [h1]
  · unfold resolve_symbol_qualified_name
    simp [h1, h2]
  · exact get_definition_short_stable fs e s k r e1 h
  · obtain ⟨-, q, defn, hq, hlk, hr⟩ := get_definition_short_symbol_inv fs e s k r e1 h
    have hfile : defn.file_path = f1 ∨ defn.file_path = f2 := by
      apply hd defn
      unfold resolve_symbol_qualified_name at hq
      by_cases h1 : (dlookup s e1.symbol_index).isSome
      · left
        rw [if_pos h1, Option.some.injEq] at hq
        rw [← hq] at hlk
        obtain ⟨d0, hd0⟩ := Option.isSome_iff_exists.mp h1
        rw [hd0] at hlk ⊢
        exact hlk
      · right
        rw [if_neg h1] at hq
        cases h2 : dlookup s e1.symbols_by_simple_name with
        | none => rw [h2] at hq; exact absurd hq (by simp)
        | some qs =>
            rw [h2] at hq
            exact ⟨qs, q, rfl, List.mem_of_mem_head? hq, hlk⟩
    have hrf : r.file_path = pyPathStr defn.file_path := by
      rw [hr]; rfl
    rcases hfile with h1 | h1
    · exact Or.inl ⟨by rw [hrf, h1], by rw [hrf, h1]; exact h12⟩
    · exact Or.inr ⟨by rw [hrf, h1], by rw [hrf, h1]; exact fun hc => h12 hc.symm⟩

/-- Collision fixture, first file: /p/a1.py defining util(). -/
def c6M1 : PyModuleSrc :=
  ⟨"def util():\n    return 1\n", none,
    [.functionDef "util" 1 0 (some "util in A") "def util():\n    return 1" [] []]⟩

/-- Collision fixture, second file: /p/a2.py defining util(). -/
def c6M2 : PyModuleSrc :=
  ⟨"def util():\n    return 2\n", none,
    [.functionDef "util" 1 0 (some "util in B") "def util():\n    return 2" [] []]⟩

/-- Path of the first collision file. -/
def c6P1 : PyPath := ["p", "a1.py"]

/-- Path of the second collision file. -/
def c6P2 : PyPath := ["p", "a2.py"]

/-- Filesystem with the two colliding files. -/
def c6FS : FileSystem := fun p =>
  if p = c6P1 then .source 10 c6M1 else if p = c6P2 then .source 11 c6M2 else .absent

/-- Engine over the collision project, both files eagerly indexed. -/
def c6E : LSPEngine := (lsp_engine_init c6FS [c6P1, c6P2] ["p"] 200 5000000).1

/-- The first-indexed definition of util (the one in a1.py). -/
def c6D : SymbolDefinition :=
  { parent_qualified_name := some "a1"
    name := "util"
    kind := "function"
    type_ann := none
    file_path := c6P1
    line := 1
    column := 0
    docstring := some "util in A"
    init_docstring := none
    full_source := some "def util():\n    return 1"
    qualified_name := "a1.util" }

/-- The later-indexed definition of util (the one in a2.py). -/
def c6D2 : SymbolDefinition :=
  { parent_qualified_name := some "a2"
    name := "util"
    kind := "function"
    type_ann := none
    file_path := c6P2
    line := 1
    column := 0
    docstring := some "util in B"
    init_docstring := none
    full_source := some "def util():\n    return 2"
    qualified_name := "a2.util" }

/-- The value getDefinitionShort returns for "util" on the collision
project. -/
def c6R : ShortDefinition :=
  { name := "util"
    kind := "function"
    type := none
    file_path := "/p/a1.py"
    docstring := some "util in A"
    init_docstring := none }

theorem c6_call_eq :
    get_definition_short c6FS c6E (some "util") none 1000 = ⟨some c6R, c6E, none⟩ := by
  have hE : ensure_symbol_indexed c6FS c6E "util" = (c6E, none) :=
    ensure_symbol_indexed_of_resolvable c6FS c6E "util" (by decide)
  unfold get_definition_short
  dsimp only
  rw [hE]
  dsimp only
  rw [show resolve_symbol_qualified_name c6E "util" = some "a1.util" from by decide]
  dsimp only
  rw [show dlookup "a1.util" c6E.symbol_index = some c6D from by decide]
  rfl

/-- Witness for C6 at the collision project: "util" is defined in both
a1.py and a2.py; resolution returns the first-indexed entry, the returned
definition belongs to a1.py only, and the repeated call returns the same
definition with the state unchanged. -/
theorem collision_resolution_witness :
    resolve_symbol_qualified_name c6E "util" =
      (["a1.util", "a2.util"] : List String).head? ∧
    get_definition_short c6FS c6E (some "util") none 1000 = ⟨some c6R, c6E, none⟩ ∧
    ((c6R.file_path = pyPathStr c6P1 ∧ c6R.file_path ≠ pyPathStr c6P2) ∨
      (c6R.file_path = pyPathStr c6P2 ∧ c6R.file_path ≠ pyPathStr c6P1)) := by
  have hmain := collision_resolution_first_indexed c6FS c6E "util"
  refine ⟨hmain.2.1 ["a1.util", "a2.util"] (by decide) (by decide), ?_, ?_⟩
  · exact hmain.2.2.1 1000 c6R c6E c6_call_eq
  · apply hmain.2.2.2 1000 c6R c6E c6P1 c6P2 c6_call_eq
    · intro d hcase
      rcases hcase with h1 | ⟨qs, q, hqs, hqm, hql⟩
      · rw [show dlookup "util" c6E.symbol_index = (none : Option SymbolDefinition) from
          by decide] at h1
        exact absurd h1 (by simp)
      · rw [show dlookup "util" c6E.symbols_by_simple_name =
            some ["a1.util", "a2.util"] from by decide, Option.some.injEq] at hqs
        subst hqs
        simp only [List.mem_cons, List.not_mem_nil, or_false] at hqm
        rcases hqm with hq1 | hq2
        · subst hq1
          rw [show dlookup "a1.util" c6E.symbol_index = some c6D from by decide,
            Option.some.injEq] at hql
          subst hql
          exact Or.inl rfl
        · subst hq2
          rw [show dlookup "a2.util" c6E.symbol_index = some c6D2 from by decide,
            Option.some.injEq] at hql
          subst hql
          exact Or.inr rfl
    · decide

/-!  ## Stable-sort lemmas -/

theorem pyInsertBy_perm {α : Type} (lt : α → α → Bool) (x : α) (l : List α) :
    (pyInsertBy lt x l).Perm (x :: l) := by
  induction l with
  | nil => exact List.Perm.refl _
  | cons y ys ih =>
      unfold pyInsertBy
      by_cases h : lt y x
      · simp only [if_pos h]
        exact (ih.cons y).trans (List.Perm.swap x y ys)
      · simp only [if_neg h]
        exact List.Perm.refl _

theorem pySortBy_perm {α : Type} (lt : α → α → Bool) (l : List α) :
    (pySortBy lt l).Perm l := by
  induction l with
  | nil => exact List.Perm.refl _
  | cons x xs ih =>
      unfold pySortBy
      exact (pyInsertBy_perm lt x (pySortBy lt xs)).trans (ih.cons x)

theorem pyInsertBy_pairwise {α : Type} (lt : α → α → Bool)
    (htrans : ∀ a b c, lt b a = false → lt c b = false → lt c a = false)
    (hasymm : ∀ a b, lt a b = true → lt b a = false)
    (x : α) (l : List α) (h : l.Pairwise fun a b => lt b a = false) :
    (pyInsertBy lt x l).Pairwise fun a b => lt b a = false := by
  induction l with
  | nil => simp [pyInsertBy]
  | cons y ys ih =>
      rw [List.pairwise_cons] at h
      obtain ⟨hy, hys⟩ := h
      unfold pyInsertBy
      by_cases hlt : lt y x
      · simp only [if_pos hlt]
        rw [List.pairwise_cons]
        refine ⟨fun z hz => ?_, ih hys⟩
        rcases List.mem_cons.mp ((pyInsertBy_perm lt x ys).mem_iff.mp hz) with hzx | hzys
        · subst hzx
          exact hasymm y z hlt
        · exact hy z hzys
      · simp only [if_neg hlt]
        rw [List.pairwise_cons]
        refine ⟨fun z hz => ?_, List.pairwise_cons.mpr ⟨hy, hys⟩⟩
        rcases List.mem_cons.mp hz with hzy | hzys
        · subst hzy
          exact Bool.eq_false_iff.mpr hlt
        · exact htrans x y z (Bool.eq_false_iff.mpr hlt) (hy z hzys)

theorem pySortBy_pairwise {α : Type} (lt : α → α → Bool)
    (htrans : ∀ a b c, lt b a = false → lt c b = false → lt c a = false)
    (hasymm : ∀ a b, lt a b = true → lt b a = false)
    (l : List α) : (pySortBy lt l).Pairwise fun a b => lt b a = false := by
  induction l with
  | nil => simp [pySortBy]
  | cons x xs ih =>
      unfold pySortBy
      exact pyInsertBy_pairwise lt htrans hasymm x (pySortBy lt xs) ih

/-!  ## Engine-state bookkeeping lemmas -/

/-- The engine fields no indexing step ever modifies. -/
def staticOf (e : LSPEngine) : PyPath × Nat × Nat × List PyPath × List (PyPath × Nat) × Nat :=
  (e.project_root, e.max_eager_files, e.max_eager_bytes, e.all_files, e.file_sizes,
    e.total_bytes)

theorem foldl_register_definition_static (l : List SymbolDefinition) (e : LSPEngine) :
    staticOf (l.foldl register_definition e) = staticOf e := by
  induction l generalizing e with
  | nil => rfl
  | cons d rest ih => simpa [register_definition, staticOf] using ih _

theorem foldl_register_reference_static (l : List SymbolReference) (e : LSPEngine) :
    staticOf (l.foldl register_reference e) = staticOf e := by
  induction l generalizing e with
  | nil => rfl
  | cons r rest ih => simpa [register_reference, staticOf] using ih _

theorem index_file_static (fs : FileSystem) (e : LSPEngine) (p : PyPath) :
    staticOf (index_file fs e p).1 = staticOf e := by
  by_cases hidx : p ∈ e.indexed_files
  · simp [index_file, hidx]
  · cases hfs : fs p with
    | absent => simp [index_file, hidx, hfs]
    | unparseable sz => simp [index_file, hidx, hfs]
    | source sz m =>
        simp only [index_file, if_neg hidx, hfs]
        rw [foldl_register_reference_static, foldl_register_definition_static]
        rfl

theorem index_file_source_ok (fs : FileSystem) (e : LSPEngine) (p : PyPath)
    (sz : Nat) (m : PyModuleSrc) (hfs : fs p = .source sz m) (hni : p ∉ e.indexed_files) :
    index_file fs e p = ((index_file fs e p).1, none) ∧
    (index_file fs e p).1.indexed_files = e.indexed_files ++ [p] := by
  constructor
  · simp [index_file, hni, hfs]
  · simp only [index_file, if_neg hni, hfs]
    rw [foldl_register_reference_indexed_files, foldl_register_definition_indexed_files]

theorem index_all_source_ok (fs : FileSystem) :
    ∀ (paths : List PyPath) (e : LSPEngine),
    (∀ p ∈ paths, ∃ sz m, fs p = FileEntry.source sz m) → paths.Nodup →
    (∀ p ∈ paths, p ∉ e.indexed_files) →
    index_all fs e paths = ((index_all fs e paths).1, none) ∧
    (index_all fs e paths).1.indexed_files = e.indexed_files ++ paths ∧
    staticOf (index_all fs e paths).1 = staticOf e := by
  intro paths
  induction paths with
  | nil => exact fun e _ _ _ => ⟨rfl, by simp [index_all], rfl⟩
  | cons p rest ih =>
      intro e hpar hnodup hdisj
      obtain ⟨sz, m, hfs⟩ := hpar p (by simp)
      have hni : p ∉ e.indexed_files := hdisj p (by simp)
      obtain ⟨hok, hidx⟩ := index_file_source_ok fs e p sz m hfs hni
      have hunf : index_all fs e (p :: rest) =
          match index_file fs e p with
          | (e1, none) => index_all fs e1 rest
          | (e1, some err) => (e1, some err) := rfl
      have hstep : index_all fs e (p :: rest) = index_all fs (index_file fs e p).1 rest := by
        rw [hunf, hok]
      have hnodup' := List.nodup_cons.mp hnodup
      have hdisj' : ∀ q ∈ rest, q ∉ (index_file fs e p).1.indexed_files := by
        intro q hq
        rw [hidx]
        simp only [List.mem_append, List.mem_singleton]
        rintro (hq1 | hq2)
        · exact hdisj q (by simp [hq]) hq1
        · exact hnodup'.1 (hq2 ▸ hq)
      obtain ⟨hok2, hidx2, hstat2⟩ :=
        ih (index_file fs e p).1 (fun q hq => hpar q (by simp [hq])) hnodup'.2 hdisj'
      refine ⟨?_, ?_, ?_⟩
      · rw [hstep]
        exact hok2
      · rw [hstep, hidx2, hidx]
        simp
      · rw [hstep, hstat2, index_file_static]

/-- The engine state right after __init__'s field initialisation and
_discover_files, before _initial_index runs (all index maps empty). -/
def init_engine (fs : FileSystem) (rglobbed : List PyPath) (root : PyPath)
    (mf mb : Nat) : LSPEngine :=
  { project_root := root
    max_eager_files := mf
    max_eager_bytes := mb
    outline_index := []
    symbol_index := []
    symbols_by_simple_name := []
    references := []
    refs_by_symbol := []
    node_index := []
    all_files := rglobbed
    file_sizes := rglobbed.map fun q => (q, statSize fs q)
    total_bytes := (rglobbed.map (statSize fs)).sum
    indexed_files := [] }

theorem lsp_engine_init_eq (fs : FileSystem) (rglobbed : List PyPath) (root : PyPath)
    (mf mb : Nat) :
    lsp_engine_init fs rglobbed root mf mb =
      initial_index fs (init_engine fs rglobbed root mf mb) := rfl

theorem init_engine_all_files (fs : FileSystem) (rglobbed : List PyPath) (root : PyPath)
    (mf mb : Nat) : (init_engine fs rglobbed root mf mb).all_files = rglobbed := rfl

theorem init_engine_mef (fs : FileSystem) (rglobbed : List PyPath) (root : PyPath)
    (mf mb : Nat) : (init_engine fs rglobbed root mf mb).max_eager_files = mf := rfl

theorem init_engine_meb (fs : FileSystem) (rglobbed : List PyPath) (root : PyPath)
    (mf mb : Nat) : (init_engine fs rglobbed root mf mb).max_eager_bytes = mb := rfl

theorem init_engine_total_bytes (fs : FileSystem) (rglobbed : List PyPath) (root : PyPath)
    (mf mb : Nat) :
    (init_engine fs rglobbed root mf mb).total_bytes = (rglobbed.map (statSize fs)).sum := rfl

theorem init_engine_indexed_files (fs : FileSystem) (rglobbed : List PyPath) (root : PyPath)
    (mf mb : Nat) : (init_engine fs rglobbed root mf mb).indexed_files = [] := rfl

theorem staticOf_all_files {e1 e2 : LSPEngine} (h : staticOf e1 = staticOf e2) :
    e1.all_files = e2.all_files := by
  simp only [staticOf, Prod.mk.injEq] at h
  exact h.2.2.2.1

theorem size_lt_sorted (e0 : LSPEngine) (l : List PyPath) :
    (pySortBy (fun p q => size_of_file e0 p < size_of_file e0 q) l).Perm l ∧
    ((pySortBy (fun p q => size_of_file e0 p < size_of_file e0 q) l).Pairwise
      fun p q => size_of_file e0 p ≤ size_of_file e0 q) := by
  refine ⟨pySortBy_perm _ l, ?_⟩
  have hp := pySortBy_pairwise (fun p q : PyPath => decide (size_of_file e0 p < size_of_file e0 q))
    (fun a b c hba hcb => by
      simp only [decide_eq_false_iff_not, Nat.not_lt] at hba hcb ⊢
      omega)
    (fun a b hab => by
      simp only [decide_eq_true_eq] at hab
      simp only [decide_eq_false_iff_not, Nat.not_lt]
      omega)
    l
  exact hp.imp fun h => by
    simp only [decide_eq_false_iff_not, Nat.not_lt] at h
    omega

/-- C2: if the discovered file count and total byte size are within both
eager budgets, every discovered file is indexed right after construction
and no later query can trigger lazy indexing (ensureSymbolIndexed is a
no-op for every symbol); otherwise the indexed set is exactly the first
max_eager_files files of the ascending-size ordering of the discovered
files. -/
theorem eager_threshold (fs : FileSystem) (rglobbed : List PyPath) (root : PyPath)
    (mf mb : Nat) (e : LSPEngine)
    (hnodup : rglobbed.Nodup)
    (hpar : ∀ p ∈ rglobbed, ∃ sz m, fs p = FileEntry.source sz m)
    (hok : lsp_engine_init fs rglobbed root mf mb = (e, none)) :
    (rglobbed.length ≤ mf ∧ (rglobbed.map (statSize fs)).sum ≤ mb →
      (∀ p, p ∈ e.indexed_files ↔ p ∈ rglobbed) ∧
      ∀ s, ensure_symbol_indexed fs e s = (e, none)) ∧
    (¬ (rglobbed.length ≤ mf ∧ (rglobbed.map (statSize fs)).sum ≤ mb) →
      ∃ sorted_files : List PyPath,
        sorted_files.Perm rglobbed ∧
        (sorted_files.Pairwise fun p q => size_of_file e p ≤ size_of_file e q) ∧
        e.indexed_files = sorted_files.take mf) := by
  rw [lsp_engine_init_eq] at hok
  by_cases hemp : rglobbed = []
  · subst hemp
    have he : e = init_engine fs [] root mf mb := by
      unfold initial_index at hok
      rw [if_pos (show (init_engine fs [] root mf mb).all_files = [] from rfl)] at hok
      exact (congrArg Prod.fst hok).symm
    constructor
    · intro hcond
      subst he
      constructor
      · intro p
        simp [init_engine]
      · intro s
        unfold ensure_symbol_indexed
        by_cases hr : symbol_resolvable (init_engine fs [] root mf mb) s
        · simp [hr]
        · simp [hr, init_engine]
    · intro h
      exact absurd ⟨by simp, by simp⟩ h
  · have hne : ¬ (init_engine fs rglobbed root mf mb).all_files = [] := hemp
    unfold initial_index at hok
    rw [if_neg hne] at hok
    dsimp only at hok
    simp only [init_engine_all_files, init_engine_mef, init_engine_meb,
      init_engine_total_bytes] at hok
    obtain ⟨hperm, hpair⟩ := size_lt_sorted (init_engine fs rglobbed root mf mb) rglobbed
    have hLnodup : (pySortBy (fun p q =>
        size_of_file (init_engine fs rglobbed root mf mb) p <
        size_of_file (init_engine fs rglobbed root mf mb) q) rglobbed).Nodup :=
      hperm.nodup_iff.mpr hnodup
    by_cases hcond : rglobbed.length ≤ mf ∧ (rglobbed.map (statSize fs)).sum ≤ mb
    · rw [if_pos hcond] at hok
      obtain ⟨hA, hIdx, hStat⟩ := index_all_source_ok fs _
        (init_engine fs rglobbed root mf mb)
        (fun p hp => hpar p (hperm.mem_iff.mp hp)) hLnodup
        (fun p _ => by simp [init_engine])
      rw [hA, Prod.mk.injEq] at hok
      obtain ⟨hefst, -⟩ := hok
      constructor
      · intro _
        constructor
        · intro p
          rw [← hefst, hIdx]
          simpa [init_engine_indexed_files] using hperm.mem_iff
        · intro s
          unfold ensure_symbol_indexed
          by_cases hr : symbol_resolvable e s
          · simp [hr]
          · have hall : e.all_files = rglobbed := by
              rw [← hefst]
              rw [staticOf_all_files hStat]
              rfl
            have hfilter : e.all_files.filter (fun p => !decide (p ∈ e.indexed_files)) = [] := by
              rw [hall]
              rw [List.filter_eq_nil_iff]
              intro p hp
              simp only [Bool.not_eq_true', decide_eq_false_iff_not, Decidable.not_not]
              rw [← hefst, hIdx]
              simpa [init_engine_indexed_files] using hperm.mem_iff.mpr hp
            simp [ensure_symbol_indexed, hr, hfilter]
      · intro h
        exact absurd hcond h
    · rw [if_neg hcond] at hok
      obtain ⟨hA, hIdx, hStat⟩ := index_all_source_ok fs _
        (init_engine fs rglobbed root mf mb)
        (fun p hp => hpar p (hperm.mem_iff.mp ((List.take_sublist _ _).mem hp)))
        (hLnodup.sublist (List.take_sublist _ _))
        (fun p _ => by simp [init_engine])
      rw [hA, Prod.mk.injEq] at hok
      obtain ⟨hefst, -⟩ := hok
      constructor
      · intro h
        exact absurd h hcond
      · intro _
        refine ⟨_, hperm, ?_, ?_⟩
        · have : staticOf e = staticOf (init_engine fs rglobbed root mf mb) := by
            rw [← hefst]; exact hStat
          have hsz : ∀ p, size_of_file e p =
              size_of_file (init_engine fs rglobbed root mf mb) p := by
            intro p
            unfold size_of_file
            simp only [staticOf, Prod.mk.injEq] at this
            rw [this.2.2.2.2.1]
          exact hpair.imp fun h => by rw [hsz, hsz]; exact h
        · rw [← hefst, hIdx]
          simp [init_engine_indexed_files]

/-- Witness for C2 at the two-file collision project (2 files, 21 bytes,
budgets 200 files / 5,000,000 bytes): both files are indexed at
construction and ensureSymbolIndexed is a no-op for the sample symbols. -/
theorem eager_threshold_witness :
    (∀ p, p ∈ c6E.indexed_files ↔ p ∈ [c6P1, c6P2]) ∧
    ∀ s, ensure_symbol_indexed c6FS c6E s = (c6E, none) := by
  have hok : lsp_engine_init c6FS [c6P1, c6P2] ["p"] 200 5000000 = (c6E, none) := by
    have h2 : (lsp_engine_init c6FS [c6P1, c6P2] ["p"] 200 5000000).2 = none := by decide
    calc lsp_engine_init c6FS [c6P1, c6P2] ["p"] 200 5000000
        = ((lsp_engine_init c6FS [c6P1, c6P2] ["p"] 200 5000000).1,
           (lsp_engine_init c6FS [c6P1, c6P2] ["p"] 200 5000000).2) := rfl
      _ = (c6E, none) := by rw [h2]; rfl
  have hpar : ∀ p ∈ [c6P1, c6P2], ∃ sz m, c6FS p = FileEntry.source sz m := by
    intro p hp
    rcases List.mem_cons.mp hp with h1 | h1
    · exact ⟨10, c6M1, by rw [h1]; rfl⟩
    · rcases List.mem_cons.mp h1 with h2 | h2
      · exact ⟨11, c6M2, by rw [h2]; rfl⟩
      · cases h2
  exact (eager_threshold c6FS [c6P1, c6P2] ["p"] 200 5000000 c6E (by decide) hpar hok).1
    (by decide)

/-!  ## C5: the lazy-resolution scan -/

/-- The scan order computed by _ensure_symbol_indexed: the unindexed
remainder of the discovered files, stably sorted by the two-part key
(filename-stem affinity group, file size). -/
def scan_order (e : LSPEngine) (s : String) : List PyPath :=
  pySortBy (fun p q => scoreLt (score e s p) (score e s q))
    (e.all_files.filter fun p => decide (p ∉ e.indexed_files))

theorem scoreLt_trans_neg (a b c : Nat × Nat) (hba : scoreLt b a = false)
    (hcb : scoreLt c b = false) : scoreLt c a = false := by
  simp only [scoreLt, Bool.or_eq_false_iff, Bool.and_eq_false_iff,
    decide_eq_false_iff_not, Nat.not_lt] at hba hcb ⊢
  omega

theorem scoreLt_asymm (a b : Nat × Nat) (h : scoreLt a b = true) : scoreLt b a = false := by
  simp only [scoreLt, Bool.or_eq_true, Bool.and_eq_true, decide_eq_true_eq] at h
  simp only [scoreLt, Bool.or_eq_false_iff, Bool.and_eq_false_iff,
    decide_eq_false_iff_not, Nat.not_lt]
  omega

theorem index_all_cons_ok (fs : FileSystem) (e : LSPEngine) (p : PyPath)
    (rest : List PyPath) (e2 : LSPEngine) (h : index_file fs e p = (e2, none)) :
    index_all fs e (p :: rest) = index_all fs e2 rest := by
  have hunf : index_all fs e (p :: rest) =
      match index_file fs e p with
      | (e1, none) => index_all fs e1 rest
      | (e1, some err) => (e1, some err) := rfl
  rw [hunf, h]

theorem index_file_ok_of_source (fs : FileSystem) (e : LSPEngine) (p : PyPath)
    (sz : Nat) (m : PyModuleSrc) (hfs : fs p = .source sz m) :
    index_file fs e p = ((index_file fs e p).1, none) := by
  by_cases hidx : p ∈ e.indexed_files
  · simp [index_file, hidx]
  · simp [index_file, hidx, hfs]

theorem scan_for_symbol_spec (fs : FileSystem) (s : String) :
    ∀ (l : List PyPath) (e : LSPEngine),
    (∀ p ∈ l, ∃ sz m, fs p = FileEntry.source sz m) →
    symbol_resolvable e s = false →
    ∀ e1, scan_for_symbol fs s e l = (e1, none) →
    ∃ k, k ≤ l.length ∧
      e1 = (index_all fs e (l.take k)).1 ∧
      (∀ j, j < k → symbol_resolvable (index_all fs e (l.take j)).1 s = false) ∧
      (symbol_resolvable e1 s = true ∨ k = l.length) := by
  intro l
  induction l with
  | nil =>
      intro e _ hini e1 h
      simp only [scan_for_symbol] at h
      obtain ⟨he1, -⟩ := Prod.mk.injEq .. ▸ h
      refine ⟨0, by simp, ?_, by omega, Or.inr rfl⟩
      rw [← he1]
      rfl
  | cons p rest ih =>
      intro e hpar hini e1 h
      obtain ⟨sz, m, hfs⟩ := hpar p (by simp)
      have hok := index_file_ok_of_source fs e p sz m hfs
      have hunf : scan_for_symbol fs s e (p :: rest) =
          match index_file fs e p with
          | (e2, some err) => (e2, some err)
          | (e2, none) =>
              if symbol_resolvable e2 s then (e2, none)
              else scan_for_symbol fs s e2 rest := rfl
      rw [hunf, hok] at h
      dsimp only at h
      by_cases hres : symbol_resolvable (index_file fs e p).1 s
      · rw [if_pos hres] at h
        obtain ⟨he1, -⟩ := Prod.mk.injEq .. ▸ h
        refine ⟨1, by simp, ?_, ?_, Or.inl (he1 ▸ hres)⟩
        · rw [← he1, List.take_succ_cons, List.take_zero]
          rw [index_all_cons_ok fs e p [] (index_file fs e p).1 hok]
          rfl
        · intro j hj
          interval_cases j
          exact hini
      · rw [if_neg hres] at h
        obtain ⟨k, hk, he1, hnot, hfin⟩ :=
          ih (index_file fs e p).1 (fun q hq => hpar q (by simp [hq]))
            (Bool.eq_false_iff.mpr hres) e1 h
        refine ⟨k + 1, by simpa using hk, ?_, ?_, ?_⟩
        · rw [List.take_succ_cons,
            index_all_cons_ok fs e p (rest.take k) (index_file fs e p).1 hok]
          exact he1
        · intro j hj
          cases j with
          | zero => exact hini
          | succ j' =>
              rw [List.take_succ_cons,
                index_all_cons_ok fs e p (rest.take j') (index_file fs e p).1 hok]
              exact hnot j' (by omega)
        · rcases hfin with hfin | hfin
          · exact Or.inl hfin
          · exact Or.inr (by simp [hfin])

/-- C5: for a symbol that does not yet resolve, _ensure_symbol_indexed
scans exactly the unindexed remainder of the discovered files in the order
of the stable two-key sort — affinity group 0 (lowered symbol occurs in
the lowered filename stem) before group 1, ascending size within a group —
indexing one file at a time and stopping as soon as the symbol resolves;
if the symbol already resolves, no file is indexed and the state is
returned unchanged. -/
theorem ensure_symbol_indexed_scan (fs : FileSystem) (e : LSPEngine) (s : String)
    (hpar : ∀ p ∈ e.all_files, ∃ sz m, fs p = FileEntry.source sz m) :
    (symbol_resolvable e s = true → ensure_symbol_indexed fs e s = (e, none)) ∧
    (scan_order e s).Perm (e.all_files.filter fun p => decide (p ∉ e.indexed_files)) ∧
    ((scan_order e s).Pairwise fun p q =>
      (score e s p).1 < (score e s q).1 ∨
      ((score e s p).1 = (score e s q).1 ∧ (score e s p).2 ≤ (score e s q).2)) ∧
    (symbol_resolvable e s = false →
      ∀ e1, ensure_symbol_indexed fs e s = (e1, none) →
      ∃ k, k ≤ (scan_order e s).length ∧
        e1 = (index_all fs e ((scan_order e s).take k)).1 ∧
        (∀ j, j < k → symbol_resolvable (index_all fs e ((scan_order e s).take j)).1 s = false) ∧
        (symbol_resolvable e1 s = true ∨ k = (scan_order e s).length)) := by
  refine ⟨fun h => ensure_symbol_indexed_of_resolvable fs e s h,
    pySortBy_perm _ _, ?_, fun hres e1 h => ?_⟩
  · have hp := pySortBy_pairwise (fun p q => scoreLt (score e s p) (score e s q))
      (fun a b c hba hcb => scoreLt_trans_neg _ _ _ hba hcb)
      (fun a b hab => scoreLt_asymm _ _ hab)
      (e.all_files.filter fun p => decide (p ∉ e.indexed_files))
    exact hp.imp fun hh => by
      simp only [scoreLt, Bool.or_eq_false_iff, Bool.and_eq_false_iff,
        decide_eq_false_iff_not, Nat.not_lt] at hh
      omega
  · unfold ensure_symbol_indexed at h
    rw [if_neg (by simp [hres])] at h
    dsimp only at h
    by_cases hrem : e.all_files.filter (fun p => decide (p ∉ e.indexed_files)) = []
    · rw [if_pos hrem] at h
      obtain ⟨he1, -⟩ := Prod.mk.injEq .. ▸ h
      have hord : scan_order e s = [] := by
        unfold scan_order
        rw [hrem]
        rfl
      refine ⟨0, by simp, ?_, by omega, Or.inr (by simp [hord])⟩
      rw [← he1]
      rfl
    · rw [if_neg hrem] at h
      have hmem : ∀ p ∈ scan_order e s, ∃ sz m, fs p = FileEntry.source sz m := by
        intro p hp
        have : p ∈ e.all_files.filter fun p => decide (p ∉ e.indexed_files) :=
          (pySortBy_perm _ _).mem_iff.mp hp
        exact hpar p (List.mem_of_mem_filter this)
      exact scan_for_symbol_spec fs s (scan_order e s) e hmem hres e1 h

/-- Engine over the collision project with zero eager budgets: both files
discovered, none indexed. -/
def c5E0 : LSPEngine := (lsp_engine_init c6FS [c6P1, c6P2] ["p"] 0 0).1

/-- The engine after _ensure_symbol_indexed has lazily resolved "util". -/
def c5E1 : LSPEngine := (ensure_symbol_indexed c6FS c5E0 "util").1

/-- Witness for C5: with nothing indexed eagerly, the scan for "util"
indexes a strict prefix of the scan order and stops once the symbol
resolves; once resolvable, a second ensure call is a no-op. -/
theorem ensure_symbol_indexed_scan_witness :
    ensure_symbol_indexed c6FS c5E1 "util" = (c5E1, none) ∧
    ∃ k, k ≤ (scan_order c5E0 "util").length ∧
      c5E1 = (index_all c6FS c5E0 ((scan_order c5E0 "util").take k)).1 ∧
      (∀ j, j < k →
        symbol_resolvable (index_all c6FS c5E0 ((scan_order c5E0 "util").take j)).1
          "util" = false) ∧
      (symbol_resolvable c5E1 "util" = true ∨ k = (scan_order c5E0 "util").length) := by
  have hfiles : ∀ (eng : LSPEngine), eng.all_files = [c6P1, c6P2] →
      ∀ p ∈ eng.all_files, ∃ sz m, c6FS p = FileEntry.source sz m := by
    intro eng heq p hp
    rw [heq] at hp
    rcases List.mem_cons.mp hp with h1 | h1
    · exact ⟨10, c6M1, by rw [h1]; rfl⟩
    · rcases List.mem_cons.mp h1 with h2 | h2
      · exact ⟨11, c6M2, by rw [h2]; rfl⟩
      · cases h2
  have hok : ensure_symbol_indexed c6FS c5E0 "util" = (c5E1, none) := by
    have h2 : (ensure_symbol_indexed c6FS c5E0 "util").2 = none := by decide
    calc ensure_symbol_indexed c6FS c5E0 "util"
        = ((ensure_symbol_indexed c6FS c5E0 "util").1,
           (ensure_symbol_indexed c6FS c5E0 "util").2) := rfl
      _ = (c5E1, none) := by rw [h2]; rfl
  exact ⟨(ensure_symbol_indexed_scan c6FS c5E1 "util"
      (hfiles c5E1 (by decide))).1 (by decide),
    (ensure_symbol_indexed_scan c6FS c5E0 "util"
      (hfiles c5E0 (by decide))).2.2.2 (by decide) c5E1 hok⟩

/-!  ## C9: reference filtering by file -/

/-- The number of name-occurrences the parser reports for a file (0 when
the file is absent or unparseable). -/
def file_ref_count (fs : FileSystem) (root : PyPath) (p : PyPath) : Nat :=
  match fs p with
  | .source _ m => (parse_python_file p (some root) m).references.length
  | _ => 0

/-- Engine states reachable through the engine's own operations (the
construction plus the indexing helpers every public query goes through). -/
inductive Reachable (fs : FileSystem) : LSPEngine → Prop where
  | init (rglobbed : List PyPath) (root : PyPath) (mf mb : Nat) :
      Reachable fs (lsp_engine_init fs rglobbed root mf mb).1
  | index (e : LSPEngine) (p : PyPath) :
      Reachable fs e → Reachable fs (index_file fs e p).1
  | ensureFile (e : LSPEngine) (p : PyPath) :
      Reachable fs e → Reachable fs (ensure_file_indexed fs e p).1
  | ensureSymbol (e : LSPEngine) (s : String) :
      Reachable fs e → Reachable fs (ensure_symbol_indexed fs e s).1

/-- The cross-file bookkeeping of the reference list: for every path, the
references owned by that path are exactly the parser's output for it if
the path has been indexed, and there are none otherwise. -/
def RefsInv (fs : FileSystem) (e : LSPEngine) : Prop :=
  ∀ p : PyPath, (e.references.filter fun r => decide (r.file_path = p)).length =
    if p ∈ e.indexed_files then file_ref_count fs e.project_root p else 0

theorem foldl_register_reference_references (l : List SymbolReference) (e : LSPEngine) :
    (l.foldl register_reference e).references = e.references ++ l := by
  induction l generalizing e with
  | nil => simp
  | cons r rest ih =>
      rw [List.foldl_cons, ih]
      simp [register_reference]

theorem foldl_register_definition_references (l : List SymbolDefinition) (e : LSPEngine) :
    (l.foldl register_definition e).references = e.references := by
  induction l generalizing e with
  | nil => rfl
  | cons d rest ih => simpa [register_definition] using ih _

theorem parse_refs_tagged (p : PyPath) (root : Option PyPath) (m : PyModuleSrc) :
    ∀ r ∈ (parse_python_file p root m).references, r.file_path = p := by
  intro r hr
  simp only [parse_python_file, List.mem_map] at hr
  obtain ⟨occ, -, hocc⟩ := hr
  rw [← hocc]

theorem staticOf_project_root {e1 e2 : LSPEngine} (h : staticOf e1 = staticOf e2) :
    e1.project_root = e2.project_root := by
  simp only [staticOf, Prod.mk.injEq] at h
  exact h.1

theorem refsInv_index_file (fs : FileSystem) (e : LSPEngine) (q : PyPath)
    (h : RefsInv fs e) : RefsInv fs (index_file fs e q).1 := by
  by_cases hidx : q ∈ e.indexed_files
  · simpa [index_file, hidx] using h
  · cases hfs : fs q with
    | absent => simpa [index_file, hidx, hfs] using h
    | unparseable sz => simpa [index_file, hidx, hfs] using h
    | source sz m =>
        intro p
        have hroot : (index_file fs e q).1.project_root = e.project_root := by
          have := index_file_static fs e q
          exact staticOf_project_root this
        have hrefs : (index_file fs e q).1.references =
            e.references ++ (parse_python_file q (some e.project_root) m).references := by
          simp only [index_file, if_neg hidx, hfs]
          rw [foldl_register_reference_references, foldl_register_definition_references]
        have hifiles : (index_file fs e q).1.indexed_files = e.indexed_files ++ [q] := by
          simp only [index_file, if_neg hidx, hfs]
          rw [foldl_register_reference_indexed_files, foldl_register_definition_indexed_files]
        rw [hroot, hrefs, hifiles, List.filter_append, List.length_append]
        by_cases hpq : p = q
        · subst hpq
          have hold := h p
          rw [if_neg hidx] at hold
          have hnew : ((parse_python_file p (some e.project_root) m).references.filter
              fun r => decide (r.file_path = p)) =
              (parse_python_file p (some e.project_root) m).references := by
            rw [List.filter_eq_self]
            intro r hr
            simp [parse_refs_tagged p (some e.project_root) m r hr]
          rw [hold, hnew, if_pos (by simp)]
          simp [file_ref_count, hfs]
        · have hnew : ((parse_python_file q (some e.project_root) m).references.filter
              fun r => decide (r.file_path = p)) = [] := by
            rw [List.filter_eq_nil_iff]
            intro r hr
            simp [parse_refs_tagged q (some e.project_root) m r hr, hpq]
            exact fun hc => hpq hc.symm
          rw [hnew]
          have hmem : (p ∈ e.indexed_files ++ [q]) ↔ p ∈ e.indexed_files := by
            simp [hpq]
          rw [if_congr hmem rfl rfl]
          simpa using h p

theorem refsInv_index_all (fs : FileSystem) :
    ∀ (l : List PyPath) (e : LSPEngine), RefsInv fs e → RefsInv fs (index_all fs e l).1 := by
  intro l
  induction l with
  | nil => intro e h; exact h
  | cons p rest ih =>
      intro e h
      have hunf : index_all fs e (p :: rest) =
          match index_file fs e p with
          | (e1, none) => index_all fs e1 rest
          | (e1, some err) => (e1, some err) := rfl
      rcases hstep : index_file fs e p with ⟨e2, err⟩
      have h2 : RefsInv fs e2 := by
        have := refsInv_index_file fs e p h
        rwa [hstep] at this
      cases err with
      | none => rw [hunf, hstep]; exact ih e2 h2
      | some err => rw [hunf, hstep]; exact h2

theorem refsInv_scan (fs : FileSystem) (s : String) :
    ∀ (l : List PyPath) (e : LSPEngine), RefsInv fs e →
      RefsInv fs (scan_for_symbol fs s e l).1 := by
  intro l
  induction l with
  | nil => intro e h; exact h
  | cons p rest ih =>
      intro e h
      have hunf : scan_for_symbol fs s e (p :: rest) =
          match index_file fs e p with
          | (e2, some err) => (e2, some err)
          | (e2, none) =>
              if symbol_resolvable e2 s then (e2, none)
              else scan_for_symbol fs s e2 rest := rfl
      rcases hstep : index_file fs e p with ⟨e2, err⟩
      have h2 : RefsInv fs e2 := by
        have := refsInv_index_file fs e p h
        rwa [hstep] at this
      cases err with
      | none =>
          rw [hunf, hstep]
          dsimp only
          by_cases hres : symbol_resolvable e2 s
          · rw [if_pos hres]; exact h2
          · rw [if_neg hres]; exact ih e2 h2
      | some err => rw [hunf, hstep]; exact h2

theorem refsInv_reachable (fs : FileSystem) (e : LSPEngine) (h : Reachable fs e) :
    RefsInv fs e := by
  induction h with
  | init rglobbed root mf mb =>
      rw [lsp_engine_init_eq]
      unfold initial_index
      by_cases hemp : (init_engine fs rglobbed root mf mb).all_files = []
      · rw [if_pos hemp]
        intro p
        simp [init_engine]
      · rw [if_neg hemp]
        dsimp only
        apply refsInv_index_all
        intro p
        simp [init_engine]
  | index e p _ ih => exact refsInv_index_file fs e p ih
  | ensureFile e p _ ih =>
      unfold ensure_file_indexed
      by_cases hidx : p ∈ e.indexed_files
      · rw [if_pos hidx]; exact ih
      · rw [if_neg hidx]
        dsimp only
        by_cases hall : p ∈ e.all_files
        · rw [if_pos hall]
          exact refsInv_index_file fs e p ih
        · rw [if_neg hall]
          apply refsInv_index_file
          intro q
          simpa using ih q
  | ensureSymbol e s _ ih =>
      unfold ensure_symbol_indexed
      by_cases hres : symbol_resolvable e s
      · rw [if_pos hres]; exact ih
      · rw [if_neg hres]
        dsimp only
        by_cases hrem : e.all_files.filter (fun p => decide (p ∉ e.indexed_files)) = []
        · rw [if_pos hrem]; exact ih
        · rw [if_neg hrem]
          exact refsInv_scan fs s _ e ih

/-- C9: on a reachable engine, getReferences in file mode for an indexed
file returns exactly one entry per name-occurrence the parser reported for
that file (N entries for N occurrences), each drawn from the full
reference list filtered by owning file, each carrying exactly the fields
symbol / file path / line / column (the computed context is withheld from
the response by the output shaping), with the file-path field equal to the
queried path; the engine state is unchanged and no error is raised. -/
theorem get_references_by_file (fs : FileSystem) (e : LSPEngine)
    (hreach : Reachable fs e) (p : PyPath) (hidx : p ∈ e.indexed_files) (k : Int) :
    get_references fs e none (some p) k =
      ⟨(e.references.filter fun r => decide (r.file_path = p)).map refEntryOf, e, none⟩ ∧
    (get_references fs e none (some p) k).result.length =
      file_ref_count fs e.project_root p ∧
    (∀ sz m, fs p = FileEntry.source sz m →
      file_ref_count fs e.project_root p = (bodyNames m.body).length) ∧
    ∀ entry ∈ (get_references fs e none (some p) k).result,
      entry.file_path = pyPathStr p ∧
      ∃ r ∈ e.references, r.file_path = p ∧ entry = refEntryOf r := by
  have hE : ensure_file_indexed fs e p = (e, none) := by
    unfold ensure_file_indexed
    rw [if_pos hidx]
  have hfirst : get_references fs e none (some p) k =
      ⟨(e.references.filter fun r => decide (r.file_path = p)).map refEntryOf, e, none⟩ := by
    unfold get_references
    dsimp only
    rw [hE]
  refine ⟨hfirst, ?_, ?_, ?_⟩
  · rw [hfirst]
    have hinv := refsInv_reachable fs e hreach p
    rw [if_pos hidx] at hinv
    simpa using hinv
  · intro sz m hfs
    unfold file_ref_count
    rw [hfs]
    simp [parse_python_file]
  · intro entry he
    rw [hfirst] at he
    simp only [List.mem_map] at he
    obtain ⟨r, hr, hentry⟩ := he
    have hmem := List.mem_of_mem_filter hr
    have hprop := List.of_mem_filter hr
    simp only [decide_eq_true_eq] at hprop
    constructor
    · rw [← hentry, refEntryOf, hprop]
    · exact ⟨r, hmem, hprop, hentry.symm⟩

/-- Witness for C9 at the one-file fixture: the two name-occurrences of
demo.py yield exactly two reference entries, each tagged with the queried
path. -/
theorem get_references_by_file_witness :
    (get_references wFS wE1 none (some wPath) 300).result.length =
      file_ref_count wFS wE1.project_root wPath ∧
    ∀ entry ∈ (get_references wFS wE1 none (some wPath) 300).result,
      entry.file_path = pyPathStr wPath := by
  have hreach : Reachable wFS wE1 :=
    Reachable.index wE0 wPath (Reachable.init [wPath] ["proj"] 0 0)
  have hmain := get_references_by_file wFS wE1 hreach wPath (by decide) 300
  exact ⟨hmain.2.1, fun entry he => (hmain.2.2.2 entry he).1⟩

/-!  ## C10: cross-consistency of the index maps -/

theorem dlookup_dinsert {κ α : Type} [DecidableEq κ] (k k' : κ) (v : α)
    (d : List (κ × α)) :
    dlookup k (dinsert k' v d) = if k' = k then some v else dlookup k d := by
  induction d with
  | nil => simp [dinsert, dlookup]
  | cons kv rest ih =>
      rcases kv with ⟨k0, v0⟩
      by_cases h0 : k0 = k'
      · subst h0
        simp only [dinsert, if_pos rfl, dlookup]
        by_cases h1 : k0 = k
        · subst h1; simp
        · simp [h1, dlookup]
      · simp only [dinsert, if_neg h0, dlookup]
        by_cases h1 : k0 = k
        · subst h1
          have : ¬ k' = k0 := fun hc => h0 hc.symm
          simp [this]
        · simp [h1, ih]

theorem dlookup_dappend {κ α : Type} [DecidableEq κ] (k k' : κ) (v : α)
    (d : List (κ × List α)) :
    dlookup k (dappend k' v d) =
      if k' = k then some ((dlookup k d).getD [] ++ [v]) else dlookup k d := by
  induction d with
  | nil => simp [dappend, dlookup]
  | cons kv rest ih =>
      rcases kv with ⟨k0, v0⟩
      by_cases h0 : k0 = k'
      · subst h0
        simp only [dappend, if_pos rfl, dlookup]
        by_cases h1 : k0 = k
        · subst h1; simp
        · simp [h1, dlookup]
      · simp only [dappend, if_neg h0, dlookup]
        by_cases h1 : k0 = k
        · subst h1
          have : ¬ k' = k0 := fun hc => h0 hc.symm
          simp [this]
        · simp [h1, ih]

theorem foldl_register_definition_symbol_index (l : List SymbolDefinition) (e : LSPEngine)
    (q : String) :
    (dlookup q (l.foldl register_definition e).symbol_index).isSome = true ↔
      ((dlookup q e.symbol_index).isSome = true ∨ q ∈ l.map (·.qualified_name)) := by
  induction l generalizing e with
  | nil => simp
  | cons d rest ih =>
      rw [List.foldl_cons, ih]
      simp only [register_definition, dlookup_dinsert, List.map_cons, List.mem_cons]
      by_cases h : d.qualified_name = q
      · simp [h]
      · have : ¬ q = d.qualified_name := fun hc => h hc.symm
        simp [h, this]

theorem foldl_register_definition_simple (l : List SymbolDefinition) (e : LSPEngine)
    (n : String) (qs : List String) (q : String)
    (hl : dlookup n (l.foldl register_definition e).symbols_by_simple_name = some qs)
    (hq : q ∈ qs) :
    (∃ qs0, dlookup n e.symbols_by_simple_name = some qs0 ∧ q ∈ qs0) ∨
      q ∈ l.map (·.qualified_name) := by
  induction l generalizing e with
  | nil =>
      simp only [List.foldl_nil] at hl
      exact Or.inl ⟨qs, hl, hq⟩
  | cons d rest ih =>
      rw [List.foldl_cons] at hl
      rcases ih _ hl with ⟨qs0, hqs0, hq0⟩ | hmap
      · simp only [register_definition, dlookup_dappend] at hqs0
        by_cases h : d.name = n
        · rw [if_pos h, Option.some.injEq] at hqs0
          subst hqs0
          rcases List.mem_append.mp hq0 with h1 | h1
          · cases hget : dlookup n e.symbols_by_simple_name with
            | none => rw [hget] at h1; simp at h1
            | some qs1 =>
                rw [hget] at h1
                exact Or.inl ⟨qs1, rfl, by simpa using h1⟩
          · simp only [List.mem_singleton] at h1
            subst h1
            simp
        · rw [if_neg h] at hqs0
          exact Or.inl ⟨qs0, hqs0, hq0⟩
      · simp [hmap]

theorem foldl_register_reference_symbol_index (l : List SymbolReference) (e : LSPEngine) :
    (l.foldl register_reference e).symbol_index = e.symbol_index := by
  induction l generalizing e with
  | nil => rfl
  | cons r rest ih => simpa [register_reference] using ih _

theorem foldl_register_reference_simple (l : List SymbolReference) (e : LSPEngine) :
    (l.foldl register_reference e).symbols_by_simple_name = e.symbols_by_simple_name := by
  induction l generalizing e with
  | nil => rfl
  | cons r rest ih => simpa [register_reference] using ih _

theorem foldl_register_reference_node_index (l : List SymbolReference) (e : LSPEngine) :
    (l.foldl register_reference e).node_index = e.node_index := by
  induction l generalizing e with
  | nil => rfl
  | cons r rest ih => simpa [register_reference] using ih _

theorem foldl_register_definition_node_index (l : List SymbolDefinition) (e : LSPEngine) :
    (l.foldl register_definition e).node_index = e.node_index := by
  induction l generalizing e with
  | nil => rfl
  | cons d rest ih => simpa [register_definition] using ih _

mutual

/-- The qualified names of a node and all its descendants. -/
def nodeQuals : OutlineNode → List String
  | .mk sym children => sym.qualified_name :: forestQuals children

/-- The qualified names of a forest of nodes. -/
def forestQuals : List OutlineNode → List String
  | [] => []
  | n :: rest => nodeQuals n ++ forestQuals rest

end

mutual

theorem register_outline_node_keys (n : OutlineNode) (idx : List (String × OutlineNode))
    (q : String) (h : (dlookup q (register_outline_node n idx)).isSome = true) :
    (dlookup q idx).isSome = true ∨ q ∈ nodeQuals n := by
  cases n with
  | mk sym children =>
      unfold register_outline_node at h
      rcases register_outline_nodes_keys children _ q h with h1 | h1
      · rw [dlookup_dinsert] at h1
        by_cases hk : sym.qualified_name = q
        · exact Or.inr (by simp [nodeQuals, hk])
        · rw [if_neg hk] at h1
          exact Or.inl h1
      · exact Or.inr (by simp [nodeQuals, h1])

theorem register_outline_nodes_keys (ns : List OutlineNode)
    (idx : List (String × OutlineNode)) (q : String)
    (h : (dlookup q (register_outline_nodes ns idx)).isSome = true) :
    (dlookup q idx).isSome = true ∨ q ∈ forestQuals ns := by
  cases ns with
  | nil => exact Or.inl h
  | cons n rest =>
      unfold register_outline_nodes at h
      rcases register_outline_nodes_keys rest _ q h with h1 | h1
      · rcases register_outline_node_keys n idx q h1 with h2 | h2
        · exact Or.inl h2
        · exact Or.inr (by simp [forestQuals, h2])
      · exact Or.inr (by simp [forestQuals, h1])

end

/-- Every entry of a parser definitions dict is keyed by its definition's
qualified name. -/
def defsWf (defs : List (String × SymbolDefinition)) : Prop :=
  ∀ kv ∈ defs, kv.2.qualified_name = kv.1

theorem dinsert_isSome {κ α : Type} [DecidableEq κ] (k k' : κ) (v : α)
    (d : List (κ × α)) (h : (dlookup k d).isSome = true) :
    (dlookup k (dinsert k' v d)).isSome = true := by
  rw [dlookup_dinsert]
  by_cases hk : k' = k
  · simp [hk]
  · simpa [hk] using h

theorem dinsert_self_isSome {κ α : Type} [DecidableEq κ] (k : κ) (v : α)
    (d : List (κ × α)) : (dlookup k (dinsert k v d)).isSome = true := by
  rw [dlookup_dinsert]
  simp

theorem dinsert_defsWf (k : String) (v : SymbolDefinition)
    (d : List (String × SymbolDefinition)) (hv : v.qualified_name = k) (hd : defsWf d) :
    defsWf (dinsert k v d) := by
  induction d with
  | nil =>
      intro kv hkv
      simp only [dinsert, List.mem_singleton] at hkv
      subst hkv
      simpa using hv
  | cons kv0 rest ih =>
      rcases kv0 with ⟨k0, v0⟩
      have hd0 : v0.qualified_name = k0 := hd ⟨k0, v0⟩ (by simp)
      have hdrest : defsWf rest := fun kv hkv => hd kv (by simp [hkv])
      intro kv hkv
      simp only [dinsert] at hkv
      by_cases h : k0 = k
      · rw [if_pos h] at hkv
        rcases List.mem_cons.mp hkv with h1 | h1
        · subst h1; simpa [h] using hv
        · exact hd kv (by simp [h1])
      · rw [if_neg h] at hkv
        rcases List.mem_cons.mp hkv with h1 | h1
        · subst h1; simpa using hd0
        · exact ih hdrest kv h1

theorem assign_target_defs_wf (fp : PyPath) (parent : String) (lineno col : Nat)
    (src : String) :
    ∀ (targets : List AssignTarget) (defs : List (String × SymbolDefinition)),
    defsWf defs → defsWf (assign_target_defs fp parent lineno col src targets defs).1 := by
  intro targets
  induction targets with
  | nil => intro defs h; exact h
  | cons t rest ih =>
      intro defs h
      cases t with
      | other => exact ih defs h
      | name id =>
          unfold assign_target_defs
          dsimp only
          rcases hrec : assign_target_defs fp parent lineno col src rest
            (dinsert (parent ++ "." ++ id)
              (assign_symbol fp parent id lineno col src) defs) with ⟨d, ns⟩
          have := ih _ (dinsert_defsWf (parent ++ "." ++ id)
            (assign_symbol fp parent id lineno col src) defs rfl h)
          rw [hrec] at this
          exact this

theorem assign_target_defs_mono (fp : PyPath) (parent : String) (lineno col : Nat)
    (src : String) :
    ∀ (targets : List AssignTarget) (defs : List (String × SymbolDefinition)) (q : String),
    (dlookup q defs).isSome = true →
    (dlookup q (assign_target_defs fp parent lineno col src targets defs).1).isSome = true := by
  intro targets
  induction targets with
  | nil => intro defs q h; exact h
  | cons t rest ih =>
      intro defs q h
      cases t with
      | other => exact ih defs q h
      | name id =>
          unfold assign_target_defs
          dsimp only
          rcases hrec : assign_target_defs fp parent lineno col src rest
            (dinsert (parent ++ "." ++ id)
              (assign_symbol fp parent id lineno col src) defs) with ⟨d, ns⟩
          have := ih _ q (dinsert_isSome q (parent ++ "." ++ id)
            (assign_symbol fp parent id lineno col src) defs h)
          rw [hrec] at this
          exact this

theorem assign_target_defs_nodes (fp : PyPath) (parent : String) (lineno col : Nat)
    (src : String) :
    ∀ (targets : List AssignTarget) (defs : List (String × SymbolDefinition)) (q : String),
    q ∈ forestQuals (assign_target_defs fp parent lineno col src targets defs).2 →
    (dlookup q (assign_target_defs fp parent lineno col src targets defs).1).isSome = true := by
  intro targets
  induction targets with
  | nil => intro defs q h; simp [assign_target_defs, forestQuals] at h
  | cons t rest ih =>
      intro defs q h
      cases t with
      | other => exact ih defs q h
      | name id =>
          unfold assign_target_defs at h ⊢
          dsimp only at h ⊢
          rcases hrec : assign_target_defs fp parent lineno col src rest
            (dinsert (parent ++ "." ++ id)
              (assign_symbol fp parent id lineno col src) defs) with ⟨d, ns⟩
          simp only [forestQuals, nodeQuals, List.cons_append, List.nil_append,
            List.mem_cons] at h
          rcases h with h1 | h1
          · subst h1
            have := assign_target_defs_mono fp parent lineno col src rest
              (dinsert (parent ++ "." ++ id)
                (assign_symbol fp parent id lineno col src) defs)
              (parent ++ "." ++ id) (dinsert_self_isSome _ _ _)
            rw [hrec] at this
            exact this
          · have := ih (dinsert (parent ++ "." ++ id)
              (assign_symbol fp parent id lineno col src) defs) q h1
            rw [hrec] at this
            exact this

mutual

theorem walk_stmt_mono (fp : PyPath) (parent : String)
    (defs : List (String × SymbolDefinition)) (st : PyStmt) (q : String)
    (h : (dlookup q defs).isSome = true) :
    (dlookup q (walk_stmt fp parent defs st).1).isSome = true := by
  cases st with
  | classDef name lineno col doc src ns body =>
      unfold walk_stmt
      dsimp only
      rcases hrec : walk_body fp (parent ++ "." ++ name)
        (dinsert (parent ++ "." ++ name)
          (class_symbol fp parent name lineno col doc src body) defs) body with ⟨d, ch⟩
      have := walk_body_mono fp (parent ++ "." ++ name) _ body q
        (dinsert_isSome q (parent ++ "." ++ name)
          (class_symbol fp parent name lineno col doc src body) defs h)
      rw [hrec] at this
      exact this
  | functionDef name lineno col doc src ns body =>
      unfold walk_stmt
      dsimp only
      rcases hrec : walk_body fp (parent ++ "." ++ name)
        (dinsert (parent ++ "." ++ name)
          (function_symbol fp parent name lineno col doc src) defs) body with ⟨d, ch⟩
      have := walk_body_mono fp (parent ++ "." ++ name) _ body q
        (dinsert_isSome q (parent ++ "." ++ name)
          (function_symbol fp parent name lineno col doc src) defs h)
      rw [hrec] at this
      exact this
  | assign targets lineno col src ns =>
      exact assign_target_defs_mono fp parent lineno col src targets defs q h
  | annAssign target ann lineno col src ns =>
      cases target with
      | name id =>
          unfold walk_stmt
          exact dinsert_isSome q (parent ++ "." ++ id)
            (ann_symbol fp parent id ann lineno col src) defs h
      | other => exact h
  | other ns => exact h

theorem walk_body_mono (fp : PyPath) (parent : String)
    (defs : List (String × SymbolDefinition)) (body : List PyStmt) (q : String)
    (h : (dlookup q defs).isSome = true) :
    (dlookup q (walk_body fp parent defs body).1).isSome = true := by
  cases body with
  | nil => exact h
  | cons s rest =>
      unfold walk_body
      dsimp only
      rcases hs : walk_stmt fp parent defs s with ⟨d1, ns⟩
      rcases hb : walk_body fp parent d1 rest with ⟨d2, ms⟩
      have h1 := walk_stmt_mono fp parent defs s q h
      rw [hs] at h1
      have h2 := walk_body_mono fp parent d1 rest q h1
      rw [hb] at h2
      exact h2

end

mutual

theorem walk_stmt_defsWf (fp : PyPath) (parent : String)
    (defs : List (String × SymbolDefinition)) (st : PyStmt) (h : defsWf defs) :
    defsWf (walk_stmt fp parent defs st).1 := by
  cases st with
  | classDef name lineno col doc src ns body =>
      unfold walk_stmt
      dsimp only
      rcases hrec : walk_body fp (parent ++ "." ++ name)
        (dinsert (parent ++ "." ++ name)
          (class_symbol fp parent name lineno col doc src body) defs) body with ⟨d, ch⟩
      have := walk_body_defsWf fp (parent ++ "." ++ name) _ body
        (dinsert_defsWf (parent ++ "." ++ name)
          (class_symbol fp parent name lineno col doc src body) defs rfl h)
      rw [hrec] at this
      exact this
  | functionDef name lineno col doc src ns body =>
      unfold walk_stmt
      dsimp only
      rcases hrec : walk_body fp (parent ++ "." ++ name)
        (dinsert (parent ++ "." ++ name)
          (function_symbol fp parent name lineno col doc src) defs) body with ⟨d, ch⟩
      have := walk_body_defsWf fp (parent ++ "." ++ name) _ body
        (dinsert_defsWf (parent ++ "." ++ name)
          (function_symbol fp parent name lineno col doc src) defs rfl h)
      rw [hrec] at this
      exact this
  | assign targets lineno col src ns =>
      exact assign_target_defs_wf fp parent lineno col src targets defs h
  | annAssign target ann lineno col src ns =>
      cases target with
      | name id =>
          unfold walk_stmt
          exact dinsert_defsWf (parent ++ "." ++ id)
            (ann_symbol fp parent id ann lineno col src) defs rfl h
      | other => exact h
  | other ns => exact h

theorem walk_body_defsWf (fp : PyPath) (parent : String)
    (defs : List (String × SymbolDefinition)) (body : List PyStmt) (h : defsWf defs) :
    defsWf (walk_body fp parent defs body).1 := by
  cases body with
  | nil => exact h
  | cons s rest =>
      unfold walk_body
      dsimp only
      rcases hs : walk_stmt fp parent defs s with ⟨d1, ns⟩
      rcases hb : walk_body fp parent d1 rest with ⟨d2, ms⟩
      have h1 := walk_stmt_defsWf fp parent defs s h
      rw [hs] at h1
      have h2 := walk_body_defsWf fp parent d1 rest h1
      rw [hb] at h2
      exact h2

end

mutual

theorem walk_stmt_nodes (fp : PyPath) (parent : String)
    (defs : List (String × SymbolDefinition)) (st : PyStmt) (q : String)
    (h : q ∈ forestQuals (walk_stmt fp parent defs st).2) :
    (dlookup q (walk_stmt fp parent defs st).1).isSome = true := by
  cases st with
  | classDef name lineno col doc src ns body =>
      unfold walk_stmt at h ⊢
      dsimp only at h ⊢
      rcases hrec : walk_body fp (parent ++ "." ++ name)
        (dinsert (parent ++ "." ++ name)
          (class_symbol fp parent name lineno col doc src body) defs) body with ⟨d, ch⟩
      simp only [forestQuals, nodeQuals, List.append_nil, List.mem_cons] at h
      rcases h with h1 | h1
      · subst h1
        have := walk_body_mono fp (parent ++ "." ++ name)
          (dinsert (parent ++ "." ++ name)
            (class_symbol fp parent name lineno col doc src body) defs) body
          (parent ++ "." ++ name)
          (dinsert_self_isSome (parent ++ "." ++ name)
            (class_symbol fp parent name lineno col doc src body) defs)
        rw [hrec] at this
        exact this
      · have := walk_body_nodes fp (parent ++ "." ++ name)
          (dinsert (parent ++ "." ++ name)
            (class_symbol fp parent name lineno col doc src body) defs) body q h1
        rw [hrec] at this
        exact this
  | functionDef name lineno col doc src ns body =>
      unfold walk_stmt at h ⊢
      dsimp only at h ⊢
      rcases hrec : walk_body fp (parent ++ "." ++ name)
        (dinsert (parent ++ "." ++ name)
          (function_symbol fp parent name lineno col doc src) defs) body with ⟨d, ch⟩
      simp only [forestQuals, nodeQuals, List.append_nil, List.mem_cons] at h
      rcases h with h1 | h1
      · subst h1
        have := walk_body_mono fp (parent ++ "." ++ name)
          (dinsert (parent ++ "." ++ name)
            (function_symbol fp parent name lineno col doc src) defs) body
          (parent ++ "." ++ name)
          (dinsert_self_isSome (parent ++ "." ++ name)
            (function_symbol fp parent name lineno col doc src) defs)
        rw [hrec] at this
        exact this
      · have := walk_body_nodes fp (parent ++ "." ++ name)
          (dinsert (parent ++ "." ++ name)
            (function_symbol fp parent name lineno col doc src) defs) body q h1
        rw [hrec] at this
        exact this
  | assign targets lineno col src ns =>
      exact assign_target_defs_nodes fp parent lineno col src targets defs q h
  | annAssign target ann lineno col src ns =>
      cases target with
      | name id =>
          unfold walk_stmt at h ⊢
          simp only [forestQuals, nodeQuals, List.append_nil, List.mem_cons,
            List.not_mem_nil, or_false] at h
          subst h
          exact dinsert_self_isSome _ _ _
      | other => simp [walk_stmt, forestQuals] at h
  | other ns => simp [walk_stmt, forestQuals] at h

theorem walk_body_nodes (fp : PyPath) (parent : String)
    (defs : List (String × SymbolDefinition)) (body : List PyStmt) (q : String)
    (h : q ∈ forestQuals (walk_body fp parent defs body).2) :
    (dlookup q (walk_body fp parent defs body).1).isSome = true := by
  cases body with
  | nil => simp [walk_body, forestQuals] at h
  | cons s rest =>
      unfold walk_body at h ⊢
      dsimp only at h ⊢
      rcases hs : walk_stmt fp parent defs s with ⟨d1, ns⟩
      dsimp only at h ⊢
      rcases hb : walk_body fp parent d1 rest with ⟨d2, ms⟩
      dsimp only at h ⊢
      have happ : ∀ xs ys : List OutlineNode,
          forestQuals (xs ++ ys) = forestQuals xs ++ forestQuals ys := by
        intro xs
        induction xs with
        | nil => intro ys; simp [forestQuals]
        | cons n rest2 ih2 => intro ys; simp [forestQuals, ih2, List.append_assoc]
      rw [happ, List.mem_append] at h
      rcases h with h1 | h1
      · have h2 := walk_stmt_nodes fp parent defs s q h1
        rw [hs] at h2
        have h3 := walk_body_mono fp parent d1 rest q h2
        rw [hb] at h3
        exact h3
      · rw [hs] at h1
        have h2 := walk_body_nodes fp parent d1 rest q h1
        rw [hb] at h2
        exact h2

end

theorem parse_python_file_definitions (p : PyPath) (root : Option PyPath) (m : PyModuleSrc) :
    (parse_python_file p root m).definitions =
      (walk_body p (compute_module_qualified_name p root)
        [(compute_module_qualified_name p root,
          module_symbol p (compute_module_qualified_name p root) m)] m.body).1 := rfl

theorem parse_python_file_module_node (p : PyPath) (root : Option PyPath) (m : PyModuleSrc) :
    (parse_python_file p root m).module_node =
      OutlineNode.mk (module_symbol p (compute_module_qualified_name p root) m)
        (walk_body p (compute_module_qualified_name p root)
          [(compute_module_qualified_name p root,
            module_symbol p (compute_module_qualified_name p root) m)] m.body).2 := rfl

theorem parse_definitions_wf (p : PyPath) (root : Option PyPath) (m : PyModuleSrc) :
    defsWf (parse_python_file p root m).definitions := by
  rw [parse_python_file_definitions]
  apply walk_body_defsWf
  intro kv hkv
  simp only [List.mem_singleton] at hkv
  subst hkv
  rfl

theorem parse_nodes_registered (p : PyPath) (root : Option PyPath) (m : PyModuleSrc)
    (q : String) (h : q ∈ nodeQuals (parse_python_file p root m).module_node) :
    (dlookup q (parse_python_file p root m).definitions).isSome = true := by
  rw [parse_python_file_module_node] at h
  rw [parse_python_file_definitions]
  simp only [nodeQuals, List.mem_cons] at h
  rcases h with h1 | h1
  · subst h1
    apply walk_body_mono
    have : (module_symbol p (compute_module_qualified_name p root) m).qualified_name =
        compute_module_qualified_name p root := rfl
    rw [this]
    simp [dlookup]
  · exact walk_body_nodes p (compute_module_qualified_name p root) _ m.body q h1

theorem dlookup_isSome_mem_map_qual (defs : List (String × SymbolDefinition))
    (hwf : defsWf defs) (q : String) (h : (dlookup q defs).isSome = true) :
    q ∈ (dvalues defs).map (·.qualified_name) := by
  induction defs with
  | nil => simp [dlookup] at h
  | cons kv rest ih =>
      rcases kv with ⟨k0, v0⟩
      simp only [dlookup] at h
      by_cases hk : k0 = q
      · subst hk
        have := hwf ⟨k0, v0⟩ (by simp)
        simp only [dvalues, List.map_cons, List.mem_cons]
        exact Or.inl this.symm
      · rw [if_neg hk] at h
        have hrest : defsWf rest := fun kv hkv => hwf kv (by simp [hkv])
        simp only [dvalues, List.map_cons, List.mem_cons]
        exact Or.inr (by simpa [dvalues] using ih hrest h)

/-- The cross-consistency invariant (C10): every qualified name stored in
any simple-name collision list is a key of the symbol table, and every key
of the outline-node index is a key of the symbol table. -/
def CrossConsistent (e : LSPEngine) : Prop :=
  (∀ n qs q, dlookup n e.symbols_by_simple_name = some qs → q ∈ qs →
    (dlookup q e.symbol_index).isSome = true) ∧
  (∀ q, (dlookup q e.node_index).isSome = true →
    (dlookup q e.symbol_index).isSome = true)

theorem crossConsistent_index_file (fs : FileSystem) (e : LSPEngine) (p : PyPath)
    (h : CrossConsistent e) : CrossConsistent (index_file fs e p).1 := by
  by_cases hidx : p ∈ e.indexed_files
  · simpa [index_file, hidx] using h
  · cases hfs : fs p with
    | absent => simpa [index_file, hidx, hfs] using h
    | unparseable sz => simpa [index_file, hidx, hfs] using h
    | source sz m =>
        have hpdef := parse_definitions_wf p (some e.project_root) m
        have hform : (index_file fs e p).1 =
            (parse_python_file p (some e.project_root) m).references.foldl register_reference
              ((dvalues (parse_python_file p (some e.project_root) m).definitions).foldl
                register_definition
                { e with
                  outline_index := dinsert p
                    (parse_python_file p (some e.project_root) m).module_node e.outline_index
                  indexed_files := e.indexed_files ++ [p]
                  node_index := register_outline_node
                    (parse_python_file p (some e.project_root) m).module_node e.node_index }) := by
          simp only [index_file, if_neg hidx, hfs]
        rw [hform]
        constructor
        · intro n qs q hl hq
          rw [foldl_register_reference_simple] at hl
          rw [foldl_register_reference_symbol_index, foldl_register_definition_symbol_index]
          rcases foldl_register_definition_simple _ _ n qs q hl hq with ⟨qs0, hqs0, hq0⟩ | hmap
          · exact Or.inl (h.1 n qs0 q hqs0 hq0)
          · exact Or.inr hmap
        · intro q hn
          rw [foldl_register_reference_node_index, foldl_register_definition_node_index] at hn
          rw [foldl_register_reference_symbol_index, foldl_register_definition_symbol_index]
          rcases register_outline_node_keys
              (parse_python_file p (some e.project_root) m).module_node e.node_index q hn
            with h1 | h1
          · exact Or.inl (h.2 q h1)
          · exact Or.inr (dlookup_isSome_mem_map_qual _ hpdef q
              (parse_nodes_registered p (some e.project_root) m q h1))

theorem crossConsistent_index_all (fs : FileSystem) :
    ∀ (l : List PyPath) (e : LSPEngine), CrossConsistent e →
      CrossConsistent (index_all fs e l).1 := by
  intro l
  induction l with
  | nil => intro e h; exact h
  | cons p rest ih =>
      intro e h
      have hunf : index_all fs e (p :: rest) =
          match index_file fs e p with
          | (e1, none) => index_all fs e1 rest
          | (e1, some err) => (e1, some err) := rfl
      rcases hstep : index_file fs e p with ⟨e2, err⟩
      have h2 : CrossConsistent e2 := by
        have := crossConsistent_index_file fs e p h
        rwa [hstep] at this
      cases err with
      | none => rw [hunf, hstep]; exact ih e2 h2
      | some err => rw [hunf, hstep]; exact h2

theorem crossConsistent_scan (fs : FileSystem) (s : String) :
    ∀ (l : List PyPath) (e : LSPEngine), CrossConsistent e →
      CrossConsistent (scan_for_symbol fs s e l).1 := by
  intro l
  induction l with
  | nil => intro e h; exact h
  | cons p rest ih =>
      intro e h
      have hunf : scan_for_symbol fs s e (p :: rest) =
          match index_file fs e p with
          | (e2, some err) => (e2, some err)
          | (e2, none) =>
              if symbol_resolvable e2 s then (e2, none)
              else scan_for_symbol fs s e2 rest := rfl
      rcases hstep : index_file fs e p with ⟨e2, err⟩
      have h2 : CrossConsistent e2 := by
        have := crossConsistent_index_file fs e p h
        rwa [hstep] at this
      cases err with
      | none =>
          rw [hunf, hstep]
          dsimp only
          by_cases hres : symbol_resolvable e2 s
          · rw [if_pos hres]; exact h2
          · rw [if_neg hres]; exact ih e2 h2
      | some err => rw [hunf, hstep]; exact h2

/-- C10: every engine state reachable through the engine's own operations
(construction, file indexing, the ensure helpers all public queries use)
is cross-consistent: any qualified name stored in a simple-name collision
list is a key of the symbol table (so a name resolvable through the
collision table always yields a retrievable definition), and any key of
the outline-node index is a key of the symbol table (so any outline node's
symbol is registered). -/
theorem crossConsistent_reachable (fs : FileSystem) (e : LSPEngine)
    (h : Reachable fs e) : CrossConsistent e := by
  induction h with
  | init rglobbed root mf mb =>
      rw [lsp_engine_init_eq]
      unfold initial_index
      by_cases hemp : (init_engine fs rglobbed root mf mb).all_files = []
      · rw [if_pos hemp]
        exact ⟨fun n qs q hl => by simp [init_engine, dlookup] at hl,
          fun q hn => by simp [init_engine, dlookup] at hn⟩
      · rw [if_neg hemp]
        dsimp only
        apply crossConsistent_index_all
        exact ⟨fun n qs q hl => by simp [init_engine, dlookup] at hl,
          fun q hn => by simp [init_engine, dlookup] at hn⟩
  | index e p _ ih => exact crossConsistent_index_file fs e p ih
  | ensureFile e p _ ih =>
      unfold ensure_file_indexed
      by_cases hidx : p ∈ e.indexed_files
      · rw [if_pos hidx]; exact ih
      · rw [if_neg hidx]
        dsimp only
        by_cases hall : p ∈ e.all_files
        · rw [if_pos hall]
          exact crossConsistent_index_file fs e p ih
        · rw [if_neg hall]
          apply crossConsistent_index_file
          exact ⟨fun n qs q hl hq => ih.1 n qs q hl hq, fun q hn => ih.2 q hn⟩
  | ensureSymbol e s _ ih =>
      unfold ensure_symbol_indexed
      by_cases hres : symbol_resolvable e s
      · rw [if_pos hres]; exact ih
      · rw [if_neg hres]
        dsimp only
        by_cases hrem : e.all_files.filter (fun p => decide (p ∉ e.indexed_files)) = []
        · rw [if_pos hrem]; exact ih
        · rw [if_neg hrem]
          exact crossConsistent_scan fs s _ e ih

/-- Witness for C10: the engine over the one-file fixture is reachable and
satisfies the cross-consistency invariant; in particular the collision
entry for "C" resolves to a retrievable definition. -/
theorem crossConsistent_reachable_witness :
    CrossConsistent wE1 ∧
    (dlookup "demo.C" wE1.symbol_index).isSome = true := by
  have hreach : Reachable wFS wE1 :=
    Reachable.index wE0 wPath (Reachable.init [wPath] ["proj"] 0 0)
  have hmain := crossConsistent_reachable wFS wE1 hreach
  exact ⟨hmain, hmain.1 "C" ["demo.C"] "demo.C" (by decide) (by decide)⟩

/-!  ## C3 (amended): the truncation bound for non-negative requested
bounds -/

/-- Spec-side description of a truncatable optional text field of a
response: None stays None; for a present original, the output is present,
its length never exceeds the effective bound plus the marker length (nor
1500 plus the marker length), and the marker is appended exactly when the
original was longer than the bound. -/
def TruncatedField (orig out : Option String) (bound : Nat) (marker : String) : Prop :=
  (orig = none → out = none) ∧
  (∀ d, orig = some d →
    ∃ o, out = some o ∧
      o.length ≤ bound + marker.length ∧
      o.length ≤ 1500 + marker.length ∧
      ((d.length > bound ∧ o = (⟨d.data.take bound⟩ : String) ++ marker) ∨
        (d.length ≤ bound ∧ o = d)))

/-- Spec-side description of the full-source truncation. -/
def TruncatedSource (orig out : String) (bound : Nat) (marker : String) : Prop :=
  out.length ≤ bound + marker.length ∧
  out.length ≤ 1500 + marker.length ∧
  ((orig.length > bound ∧ out = (⟨orig.data.take bound⟩ : String) ++ marker) ∨
    (orig.length ≤ bound ∧ out = orig))

theorem string_mk_length (l : List Char) : (⟨l⟩ : String).length = l.length := rfl

theorem truncate_doc_spec (doc : Option String) (k : Int) (hk : 0 ≤ k) :
    TruncatedField doc (truncate_doc doc (min MAX_CHARS_HARD_LIMIT k))
      (min MAX_CHARS_HARD_LIMIT k).toNat "…" := by
  have hmc0 : (0 : Int) ≤ min MAX_CHARS_HARD_LIMIT k := le_min (by norm_num [MAX_CHARS_HARD_LIMIT]) hk
  have hcap : (min MAX_CHARS_HARD_LIMIT k).toNat ≤ 1500 := by
    have : min MAX_CHARS_HARD_LIMIT k ≤ 1500 := min_le_left _ _
    omega
  cases doc with
  | none => exact ⟨fun _ => rfl, fun d hd => by simp at hd⟩
  | some d =>
      refine ⟨fun hc => by simp at hc, fun d' hd' => ?_⟩
      rw [Option.some.injEq] at hd'
      subst hd'
      unfold truncate_doc
      dsimp only
      by_cases hcond : d ≠ "" ∧ (d.length : Int) > min MAX_CHARS_HARD_LIMIT k
      · rw [if_pos hcond]
        refine ⟨pySliceTo d (min MAX_CHARS_HARD_LIMIT k) ++ "…", rfl, ?_, ?_, Or.inl ⟨?_, ?_⟩⟩
        · rw [String.length_append]
          unfold pySliceTo
          rw [if_pos hmc0, string_mk_length, List.length_take]
          have : d.data.length ⊓ (min MAX_CHARS_HARD_LIMIT k).toNat ≤
              (min MAX_CHARS_HARD_LIMIT k).toNat := inf_le_right
          omega
        · rw [String.length_append]
          unfold pySliceTo
          rw [if_pos hmc0, string_mk_length, List.length_take]
          have : d.data.length ⊓ (min MAX_CHARS_HARD_LIMIT k).toNat ≤
              (min MAX_CHARS_HARD_LIMIT k).toNat := inf_le_right
          omega
        · have := hcond.2
          have hdl : d.length = d.data.length := rfl
          omega
        · unfold pySliceTo
          rw [if_pos hmc0]
      · rw [if_neg hcond]
        push_neg at hcond
        refine ⟨d, rfl, ?_, ?_, Or.inr ⟨?_, rfl⟩⟩
        · by_cases hd0 : d = ""
          · subst hd0
            simp
          · have := hcond hd0
            omega
        · by_cases hd0 : d = ""
          · subst hd0
            simp
          · have := hcond hd0
            omega
        · by_cases hd0 : d = ""
          · subst hd0
            have : ("" : String).length = 0 := rfl
            omega
          · have := hcond hd0
            omega

theorem truncate_source_spec (source : String) (k : Int) (hk : 0 ≤ k) :
    TruncatedSource source
      (if (source.length : Int) > min MAX_CHARS_HARD_LIMIT k then
        pySliceTo source (min MAX_CHARS_HARD_LIMIT k) ++ "\n…(truncated)"
      else source)
      (min MAX_CHARS_HARD_LIMIT k).toNat "\n…(truncated)" := by
  have hmc0 : (0 : Int) ≤ min MAX_CHARS_HARD_LIMIT k := le_min (by norm_num [MAX_CHARS_HARD_LIMIT]) hk
  have hcap : (min MAX_CHARS_HARD_LIMIT k).toNat ≤ 1500 := by
    have : min MAX_CHARS_HARD_LIMIT k ≤ 1500 := min_le_left _ _
    omega
  by_cases hcond : (source.length : Int) > min MAX_CHARS_HARD_LIMIT k
  · rw [if_pos hcond]
    refine ⟨?_, ?_, Or.inl ⟨?_, ?_⟩⟩
    · rw [String.length_append]
      unfold pySliceTo
      rw [if_pos hmc0, string_mk_length, List.length_take]
      have : source.data.length ⊓ (min MAX_CHARS_HARD_LIMIT k).toNat ≤
          (min MAX_CHARS_HARD_LIMIT k).toNat := inf_le_right
      omega
    · rw [String.length_append]
      unfold pySliceTo
      rw [if_pos hmc0, string_mk_length, List.length_take]
      have : source.data.length ⊓ (min MAX_CHARS_HARD_LIMIT k).toNat ≤
          (min MAX_CHARS_HARD_LIMIT k).toNat := inf_le_right
      omega
    · omega
    · unfold pySliceTo
      rw [if_pos hmc0]
  · rw [if_neg hcond]
    refine ⟨by omega, by omega, Or.inr ⟨by omega, rfl⟩⟩

/-- The shaping applied by get_definition_full to the resolved
definition. -/
def shape_full (defn : SymbolDefinition) (mc : Int) : FullDefinition :=
  let source := defn.full_source.getD ""
  let source :=
    if (source.length : Int) > mc then pySliceTo source mc ++ "\n…(truncated)"
    else source
  { name := defn.name
    kind := defn.kind
    type := defn.type_ann
    file_path := pyPathStr defn.file_path
    line := defn.line
    column := defn.column
    docstring := defn.docstring
    init_docstring := defn.init_docstring
    source := source }

theorem get_definition_short_some_inv (fs : FileSystem) (e : LSPEngine)
    (s : Option String) (fp : Option PyPath) (k : Int) (r : ShortDefinition)
    (e1 : LSPEngine) (h : get_definition_short fs e s fp k = ⟨some r, e1, none⟩) :
    ∃ defn, r = shape_short defn (min MAX_CHARS_HARD_LIMIT k) := by
  cases s with
  | some s' =>
      have heq : get_definition_short fs e (some s') fp k =
          get_definition_short fs e (some s') none k := rfl
      rw [heq] at h
      obtain ⟨-, q, defn, -, -, hr⟩ := get_definition_short_symbol_inv fs e s' k r e1 h
      exact ⟨defn, hr⟩
  | none =>
      cases fp with
      | none => simp [get_definition_short] at h
      | some fp' =>
          unfold get_definition_short at h
          dsimp only at h
          rcases hE : ensure_file_indexed fs e fp' with ⟨e1', err⟩
          rw [hE] at h
          cases err with
          | some err => simp at h
          | none =>
              dsimp only at h
              cases hl : dlookup fp' e1'.outline_index with
              | none => rw [hl] at h; simp at h
              | some node =>
                  rw [hl] at h
                  simp only [QueryOut.mk.injEq, Option.some.injEq] at h
                  exact ⟨node.symbol, h.1.symm⟩

theorem get_definition_full_some_inv (fs : FileSystem) (e : LSPEngine)
    (s : Option String) (fp : Option PyPath) (k : Int) (r : FullDefinition)
    (e1 : LSPEngine) (h : get_definition_full fs e s fp k = ⟨some r, e1, none⟩) :
    ∃ defn, r = shape_full defn (min MAX_CHARS_HARD_LIMIT k) := by
  cases s with
  | some s' =>
      unfold get_definition_full at h
      dsimp only at h
      rcases hE : ensure_symbol_indexed fs e s' with ⟨e1', err⟩
      rw [hE] at h
      cases err with
      | some err => simp at h
      | none =>
          dsimp only at h
          cases hq : resolve_symbol_qualified_name e1' s' with
          | none => rw [hq] at h; simp at h
          | some q =>
              rw [hq] at h
              dsimp only at h
              cases hd : dlookup q e1'.symbol_index with
              | none => rw [hd] at h; simp at h
              | some defn =>
                  rw [hd] at h
                  simp only [QueryOut.mk.injEq, Option.some.injEq] at h
                  exact ⟨defn, h.1.symm⟩
  | none =>
      cases fp with
      | none => simp [get_definition_full] at h
      | some fp' =>
          unfold get_definition_full at h
          dsimp only at h
          rcases hE : ensure_file_indexed fs e fp' with ⟨e1', err⟩
          rw [hE] at h
          cases err with
          | some err => simp at h
          | none =>
              dsimp only at h
              cases hl : dlookup fp' e1'.outline_index with
              | none => rw [hl] at h; simp at h
              | some node =>
                  rw [hl] at h
                  simp only [QueryOut.mk.injEq, Option.some.injEq] at h
                  exact ⟨node.symbol, h.1.symm⟩

/-- Relation between an outline node and its serialized form: every
docstring field in the serialized tree is the spec-conformant truncation
of the corresponding source field. -/
inductive SerOk (bound : Nat) : OutlineNode → SerializedNode → Prop where
  | mk (sym : SymbolDefinition) (children : List OutlineNode) (ser : SerializedNode) :
      TruncatedField sym.docstring ser.docstring bound "…" →
      TruncatedField sym.init_docstring ser.init_docstring bound "…" →
      List.Forall₂ (SerOk bound) children ser.children →
      SerOk bound (OutlineNode.mk sym children) ser

theorem min_hard_limit_idem (k : Int) :
    min MAX_CHARS_HARD_LIMIT (min MAX_CHARS_HARD_LIMIT k) = min MAX_CHARS_HARD_LIMIT k := by
  rw [← min_assoc, min_self]

mutual

theorem serialize_outline_node_ok (node : OutlineNode) (k : Int) (hk : 0 ≤ k) :
    SerOk (min MAX_CHARS_HARD_LIMIT k).toNat node (serialize_outline_node node k) := by
  cases node with
  | mk sym children =>
      unfold serialize_outline_node
      dsimp only
      refine SerOk.mk sym children _ (truncate_doc_spec _ k hk) (truncate_doc_spec _ k hk) ?_
      have h := serialize_outline_children_ok children (min MAX_CHARS_HARD_LIMIT k)
        (le_min (by norm_num [MAX_CHARS_HARD_LIMIT]) hk)
      rw [min_hard_limit_idem k] at h
      exact h

theorem serialize_outline_children_ok (ns : List OutlineNode) (k : Int) (hk : 0 ≤ k) :
    List.Forall₂ (SerOk (min MAX_CHARS_HARD_LIMIT k).toNat) ns
      (serialize_outline_children ns k) := by
  cases ns with
  | nil => exact List.Forall₂.nil
  | cons n rest =>
      unfold serialize_outline_children
      exact List.Forall₂.cons (serialize_outline_node_ok n k hk)
        (serialize_outline_children_ok rest k hk)

end

/-- C3 (amended to non-negative requested bounds; for negative maxChars
the claim fails, see the counterexample): for every requested
maxChars = k ≥ 0, every truncatable textual field of every query response
— the two docstring fields of getDefinitionShort, the source field of
getDefinitionFull, and every docstring field in every node of a
getOutline response — has length at most min(k, 1500) plus the length of
its truncation marker (and at most 1500 plus the marker length no matter
how large k is), and the marker is appended exactly when the untruncated
text was longer than min(k, 1500). -/
theorem truncation_bound (fs : FileSystem) (k : Int) (hk : 0 ≤ k) :
    (∀ e s fp r e1, get_definition_short fs e s fp k = ⟨some r, e1, none⟩ →
      ∃ defn : SymbolDefinition,
        TruncatedField defn.docstring r.docstring
          (min MAX_CHARS_HARD_LIMIT k).toNat "…" ∧
        TruncatedField defn.init_docstring r.init_docstring
          (min MAX_CHARS_HARD_LIMIT k).toNat "…") ∧
    (∀ e s fp r e1, get_definition_full fs e s fp k = ⟨some r, e1, none⟩ →
      ∃ defn : SymbolDefinition,
        TruncatedSource (defn.full_source.getD "") r.source
          (min MAX_CHARS_HARD_LIMIT k).toNat "\n…(truncated)") ∧
    (∀ e s fp res e1, get_outline fs e s fp k = ⟨res, e1, none⟩ →
      ∃ ns : List OutlineNode,
        List.Forall₂ (SerOk (min MAX_CHARS_HARD_LIMIT k).toNat) ns res) := by
  refine ⟨fun e s fp r e1 h => ?_, fun e s fp r e1 h => ?_, fun e s fp res e1 h => ?_⟩
  · obtain ⟨defn, hr⟩ := get_definition_short_some_inv fs e s fp k r e1 h
    subst hr
    exact ⟨defn, truncate_doc_spec _ k hk, truncate_doc_spec _ k hk⟩
  · obtain ⟨defn, hr⟩ := get_definition_full_some_inv fs e s fp k r e1 h
    subst hr
    exact ⟨defn, truncate_source_spec _ k hk⟩
  · have hser : ∀ children : List OutlineNode,
        List.Forall₂ (SerOk (min MAX_CHARS_HARD_LIMIT k).toNat) children
          (serialize_outline_children children (min MAX_CHARS_HARD_LIMIT k)) := by
      intro children
      have h2 := serialize_outline_children_ok children (min MAX_CHARS_HARD_LIMIT k)
        (le_min (by norm_num [MAX_CHARS_HARD_LIMIT]) hk)
      rwa [min_hard_limit_idem k] at h2
    cases s with
    | some s' =>
        unfold get_outline at h
        dsimp only at h
        rcases hE : ensure_symbol_indexed fs e s' with ⟨e1', err⟩
        rw [hE] at h
        cases err with
        | some err => simp at h
        | none =>
            dsimp only at h
            cases hq : resolve_symbol_qualified_name e1' s' with
            | none =>
                rw [hq] at h
                simp only [QueryOut.mk.injEq] at h
                exact ⟨[], h.1 ▸ List.Forall₂.nil⟩
            | some q =>
                rw [hq] at h
                dsimp only at h
                cases hd : dlookup q e1'.node_index with
                | none =>
                    rw [hd] at h
                    simp only [QueryOut.mk.injEq] at h
                    exact ⟨[], h.1 ▸ List.Forall₂.nil⟩
                | some node =>
                    rw [hd] at h
                    simp only [QueryOut.mk.injEq] at h
                    exact ⟨node.children, h.1 ▸ hser node.children⟩
    | none =>
        cases fp with
        | none =>
            simp only [get_outline, QueryOut.mk.injEq] at h
            exact ⟨[], h.1 ▸ List.Forall₂.nil⟩
        | some fp' =>
            unfold get_outline at h
            dsimp only at h
            rcases hE : ensure_file_indexed fs e fp' with ⟨e1', err⟩
            rw [hE] at h
            cases err with
            | some err => simp at h
            | none =>
                dsimp only at h
                cases hl : dlookup fp' e1'.outline_index with
                | none =>
                    rw [hl] at h
                    simp only [QueryOut.mk.injEq] at h
                    exact ⟨[], h.1 ▸ List.Forall₂.nil⟩
                | some node =>
                    rw [hl] at h
                    simp only [QueryOut.mk.injEq] at h
                    exact ⟨node.children, h.1 ▸ hser node.children⟩

/-- The stored definition of class C in the fixture engine. -/
def wCdef : SymbolDefinition :=
  { parent_qualified_name := some "demo"
    name := "C"
    kind := "class"
    type_ann := none
    file_path := wPath
    line := 1
    column := 0
    docstring := some "C doc"
    init_docstring := some "init doc"
    full_source := some "class C:\n    x = 1"
    qualified_name := "demo.C" }

/-- getDefinitionShort's response for C at maxChars = 2. -/
def c3Short : ShortDefinition :=
  { name := "C"
    kind := "class"
    type := none
    file_path := "/proj/demo.py"
    docstring := some ("C " ++ "…")
    init_docstring := some ("in" ++ "…") }

/-- getDefinitionFull's response for C at maxChars = 2. -/
def c3Full : FullDefinition :=
  { name := "C"
    kind := "class"
    type := none
    file_path := "/proj/demo.py"
    line := 1
    column := 0
    docstring := some "C doc"
    init_docstring := some "init doc"
    source := "cl" ++ "\n…(truncated)" }

/-- The module outline node stored for demo.py. -/
def wNode : OutlineNode := (parse_python_file wPath (some ["proj"]) wMod).module_node

theorem c3_short_eq :
    get_definition_short wFS wE1 (some "C") none 2 = ⟨some c3Short, wE1, none⟩ := by
  have hE : ensure_symbol_indexed wFS wE1 "C" = (wE1, none) :=
    ensure_symbol_indexed_of_resolvable wFS wE1 "C" (by decide)
  unfold get_definition_short
  dsimp only
  rw [hE]
  dsimp only
  rw [show resolve_symbol_qualified_name wE1 "C" = some "demo.C" from by decide]
  dsimp only
  rw [show dlookup "demo.C" wE1.symbol_index = some wCdef from by decide]
  rfl

theorem c3_full_eq :
    get_definition_full wFS wE1 (some "C") none 2 = ⟨some c3Full, wE1, none⟩ := by
  have hE : ensure_symbol_indexed wFS wE1 "C" = (wE1, none) :=
    ensure_symbol_indexed_of_resolvable wFS wE1 "C" (by decide)
  unfold get_definition_full
  dsimp only
  rw [hE]
  dsimp only
  rw [show resolve_symbol_qualified_name wE1 "C" = some "demo.C" from by decide]
  dsimp only
  rw [show dlookup "demo.C" wE1.symbol_index = some wCdef from by decide]
  rfl

theorem c3_outline_eq :
    get_outline wFS wE1 none (some wPath) 2 =
      ⟨serialize_outline_children wNode.children 2, wE1, none⟩ := by
  have hE : ensure_file_indexed wFS wE1 wPath = (wE1, none) := by
    unfold ensure_file_indexed
    rw [if_pos (show wPath ∈ wE1.indexed_files from by decide)]
  unfold get_outline
  dsimp only
  rw [hE]
  dsimp only
  rw [show dlookup wPath wE1.outline_index = some wNode from rfl]
  rfl

/-- Witness for C3 (amended) at the fixture project with maxChars = 2:
the short, full and outline responses all carry spec-conformant truncated
fields. -/
theorem truncation_bound_witness :
    (∃ defn : SymbolDefinition,
      TruncatedField defn.docstring c3Short.docstring
        (min MAX_CHARS_HARD_LIMIT 2).toNat "…" ∧
      TruncatedField defn.init_docstring c3Short.init_docstring
        (min MAX_CHARS_HARD_LIMIT 2).toNat "…") ∧
    (∃ defn : SymbolDefinition,
      TruncatedSource (defn.full_source.getD "") c3Full.source
        (min MAX_CHARS_HARD_LIMIT 2).toNat "\n…(truncated)") ∧
    ∃ ns : List OutlineNode,
      List.Forall₂ (SerOk (min MAX_CHARS_HARD_LIMIT 2).toNat) ns
        (serialize_outline_children wNode.children 2) := by
  have hmain := truncation_bound wFS 2 (by decide)
  exact ⟨hmain.1 wE1 (some "C") none c3Short wE1 c3_short_eq,
    hmain.2.1 wE1 (some "C") none c3Full wE1 c3_full_eq,
    hmain.2.2 wE1 none (some wPath) _ wE1 c3_outline_eq⟩

/-!  ## C4 (amended): qualified-name disjointness across well-behaved
files -/

/-- The string contains no dot. -/
def dotFreeB (s : String) : Bool :=
  !(s.data.contains '.')

/-- The identifier of an assignment target contains no dot (identifiers
produced by Python's real parser never do). -/
def target_ids_dotfree : AssignTarget → Bool
  | .name id => dotFreeB id
  | .other => true

mutual

/-- All symbol identifiers declared anywhere in a statement are dot-free,
as CPython's grammar guarantees. -/
def stmt_ids_dotfree : PyStmt → Bool
  | .classDef name _ _ _ _ _ body => dotFreeB name && body_ids_dotfree body
  | .functionDef name _ _ _ _ _ body => dotFreeB name && body_ids_dotfree body
  | .assign targets _ _ _ _ => targets.all target_ids_dotfree
  | .annAssign target _ _ _ _ _ => target_ids_dotfree target
  | .other _ => true

/-- All symbol identifiers declared in a statement list are dot-free. -/
def body_ids_dotfree : List PyStmt → Bool
  | [] => true
  | s :: rest => stmt_ids_dotfree s && body_ids_dotfree rest

end

theorem dotFreeB_iff (s : String) : dotFreeB s = true ↔ '.' ∉ s.data := by
  unfold dotFreeB
  rw [Bool.not_eq_true']
  constructor
  · intro h hc
    rw [show s.data.contains '.' = s.data.elem '.' from rfl] at h
    have h2 : List.elem '.' s.data = true := List.elem_iff.mpr hc
    rw [h2] at h
    exact absurd h (by simp)
  · intro h
    rw [show s.data.contains '.' = s.data.elem '.' from rfl]
    by_cases he : s.data.elem '.' = true
    · exact absurd (List.elem_iff.mp he) h
    · simpa using he

theorem pyJoin_append_singleton (xs : List String) (y : String) (h : xs ≠ []) :
    pyJoin "." (xs ++ [y]) = pyJoin "." xs ++ "." ++ y := by
  induction xs with
  | nil => exact absurd rfl h
  | cons x rest ih =>
      cases rest with
      | nil => simp [pyJoin]
      | cons z rest' =>
          have : pyJoin "." ((x :: z :: rest') ++ [y]) =
              x ++ "." ++ pyJoin "." ((z :: rest') ++ [y]) := rfl
          rw [this, ih (by simp), show pyJoin "." (x :: z :: rest') =
            x ++ "." ++ pyJoin "." (z :: rest') from rfl]
          simp [String.ext_iff, String.data_append, List.append_assoc]

theorem dot_split_unique :
    ∀ (a c b d : List Char), '.' ∉ a → '.' ∉ c →
    a ++ '.' :: b = c ++ '.' :: d → a = c ∧ b = d := by
  intro a
  induction a with
  | nil =>
      intro c b d _ hc h
      cases c with
      | nil => simpa using h
      | cons ch c' =>
          simp only [List.nil_append, List.cons_append, List.cons.injEq] at h
          exact absurd (h.1 ▸ List.mem_cons_self ch c') hc
  | cons ch a' ih =>
      intro c b d ha hc h
      cases c with
      | nil =>
          simp only [List.nil_append, List.cons_append, List.cons.injEq] at h
          exact absurd (h.1 ▸ List.mem_cons_self ch a') ha
      | cons ch2 c' =>
          simp only [List.cons_append, List.cons.injEq] at h
          obtain ⟨hch, hrest⟩ := h
          have ha' : '.' ∉ a' := fun hx => ha (List.mem_cons_of_mem ch hx)
          have hc' : '.' ∉ c' := fun hx => hc (List.mem_cons_of_mem ch2 hx)
          obtain ⟨h1, h2⟩ := ih c' b d ha' hc' hrest
          exact ⟨by rw [hch, h1], h2⟩

theorem pyJoin_dot_inj :
    ∀ (xs ys : List String), xs ≠ [] → ys ≠ [] →
    (∀ x ∈ xs, dotFreeB x = true) → (∀ y ∈ ys, dotFreeB y = true) →
    pyJoin "." xs = pyJoin "." ys → xs = ys := by
  intro xs
  induction xs with
  | nil => intro ys h; exact absurd rfl h
  | cons x rest ih =>
      intro ys _ hys hxf hyf heq
      cases ys with
      | nil => exact absurd rfl hys
      | cons y rest2 =>
          cases rest with
          | nil =>
              cases rest2 with
              | nil => rw [show pyJoin "." [x] = x from rfl,
                  show pyJoin "." [y] = y from rfl] at heq; rw [heq]
              | cons y2 r2 =>
                  rw [show pyJoin "." [x] = x from rfl,
                    show pyJoin "." (y :: y2 :: r2) =
                      y ++ "." ++ pyJoin "." (y2 :: r2) from rfl] at heq
                  have hxdot : '.' ∈ x.data := by
                    rw [heq, String.data_append, String.data_append]
                    simp
                  exact absurd hxdot ((dotFreeB_iff x).mp (hxf x (by simp)))
          | cons x2 r1 =>
              cases rest2 with
              | nil =>
                  rw [show pyJoin "." [y] = y from rfl,
                    show pyJoin "." (x :: x2 :: r1) =
                      x ++ "." ++ pyJoin "." (x2 :: r1) from rfl] at heq
                  have hydot : '.' ∈ y.data := by
                    rw [← heq, String.data_append, String.data_append]
                    simp
                  exact absurd hydot ((dotFreeB_iff y).mp (hyf y (by simp)))
              | cons y2 r2 =>
                  rw [show pyJoin "." (x :: x2 :: r1) =
                      x ++ "." ++ pyJoin "." (x2 :: r1) from rfl,
                    show pyJoin "." (y :: y2 :: r2) =
                      y ++ "." ++ pyJoin "." (y2 :: r2) from rfl] at heq
                  have hdata : x.data ++ '.' :: (pyJoin "." (x2 :: r1)).data =
                      y.data ++ '.' :: (pyJoin "." (y2 :: r2)).data := by
                    have := congrArg String.data heq
                    simpa [String.data_append] using this
                  obtain ⟨h1, h2⟩ := dot_split_unique x.data y.data _ _
                    ((dotFreeB_iff x).mp (hxf x (by simp)))
                    ((dotFreeB_iff y).mp (hyf y (by simp))) hdata
                  have hxy : x = y := String.ext h1
                  have htail : x2 :: r1 = y2 :: r2 :=
                    ih (y2 :: r2) (by simp) (by simp)
                      (fun z hz => hxf z (by simp [hz]))
                      (fun z hz => hyf z (by simp [hz]))
                      (String.ext h2)
                  rw [hxy, htail]

theorem dinsert_mem {κ α : Type} [DecidableEq κ] (k : κ) (v : α)
    (d : List (κ × α)) (kv : κ × α) (h : kv ∈ dinsert k v d) :
    kv = (k, v) ∨ kv ∈ d := by
  induction d with
  | nil => simpa [dinsert] using h
  | cons kv0 rest ih =>
      rcases kv0 with ⟨k0, v0⟩
      simp only [dinsert] at h
      by_cases hk : k0 = k
      · rw [if_pos hk] at h
        rcases List.mem_cons.mp h with h1 | h1
        · subst h1
          subst hk
          exact Or.inl rfl
        · exact Or.inr (by simp [h1])
      · rw [if_neg hk] at h
        rcases List.mem_cons.mp h with h1 | h1
        · exact Or.inr (by simp [h1])
        · rcases ih h1 with h2 | h2
          · exact Or.inl h2
          · exact Or.inr (by simp [h2])

theorem assign_target_quals (fp : PyPath) (base : List String) (lineno col : Nat)
    (src : String) (hb : base ≠ []) :
    ∀ (targets : List AssignTarget) (defs : List (String × SymbolDefinition)),
    targets.all target_ids_dotfree = true →
    ∀ kv ∈ (assign_target_defs fp (pyJoin "." base) lineno col src targets defs).1,
      kv ∈ defs ∨ ∃ l, l ≠ [] ∧ (∀ x ∈ l, dotFreeB x = true) ∧
        kv.1 = pyJoin "." (base ++ l) := by
  intro targets
  induction targets with
  | nil => intro defs _ kv hkv; exact Or.inl hkv
  | cons t rest ih =>
      intro defs hok kv hkv
      simp only [List.all_cons, Bool.and_eq_true] at hok
      cases t with
      | other => exact ih defs hok.2 kv hkv
      | name id =>
          unfold assign_target_defs at hkv
          dsimp only at hkv
          rcases ih (dinsert (pyJoin "." base ++ "." ++ id)
              (assign_symbol fp (pyJoin "." base) id lineno col src) defs) hok.2 kv hkv
            with h1 | h2
          · rcases dinsert_mem _ _ _ kv h1 with h3 | h3
            · right
              refine ⟨[id], by simp, ?_, ?_⟩
              · intro x hx
                simp only [List.mem_singleton] at hx
                subst hx
                simpa [target_ids_dotfree] using hok.1
              · rw [h3]
                exact (pyJoin_append_singleton base id hb).symm
            · exact Or.inl h3
          · exact Or.inr h2

mutual

theorem walk_stmt_quals (fp : PyPath) (base : List String)
    (defs : List (String × SymbolDefinition)) (st : PyStmt)
    (hb : base ≠ []) (hok : stmt_ids_dotfree st = true) :
    ∀ kv ∈ (walk_stmt fp (pyJoin "." base) defs st).1,
      kv ∈ defs ∨ ∃ l, l ≠ [] ∧ (∀ x ∈ l, dotFreeB x = true) ∧
        kv.1 = pyJoin "." (base ++ l) := by
  cases st with
  | classDef name lineno col doc src ns body =>
      intro kv hkv
      simp only [stmt_ids_dotfree, Bool.and_eq_true] at hok
      unfold walk_stmt at hkv
      dsimp only at hkv
      rcases hrec : walk_body fp (pyJoin "." base ++ "." ++ name)
        (dinsert (pyJoin "." base ++ "." ++ name)
          (class_symbol fp (pyJoin "." base) name lineno col doc src body) defs) body
        with ⟨d, ch⟩
      rw [hrec] at hkv
      dsimp only at hkv
      have hjoin : pyJoin "." base ++ "." ++ name = pyJoin "." (base ++ [name]) :=
        (pyJoin_append_singleton base name hb).symm
      have hkv' : kv ∈ (walk_body fp (pyJoin "." (base ++ [name]))
          (dinsert (pyJoin "." (base ++ [name]))
            (class_symbol fp (pyJoin "." base) name lineno col doc src body) defs)
          body).1 := by
        rw [← hjoin, hrec]
        exact hkv
      rcases walk_body_quals fp (base ++ [name]) _ body (by simp) hok.2 kv hkv'
        with h1 | h2
      · rcases dinsert_mem _ _ _ kv h1 with h3 | h3
        · right
          refine ⟨[name], by simp, ?_, ?_⟩
          · intro x hx
            simp only [List.mem_singleton] at hx
            subst hx
            exact hok.1
          · rw [h3]
        · exact Or.inl h3
      · obtain ⟨l, hl, hlf, hkey⟩ := h2
        right
        refine ⟨name :: l, by simp, ?_, ?_⟩
        · intro x hx
          rcases List.mem_cons.mp hx with h4 | h4
          · subst h4
            exact hok.1
          · exact hlf x h4
        · rw [hkey]
          have : (base ++ [name]) ++ l = base ++ name :: l := by simp
          rw [this]
  | functionDef name lineno col doc src ns body =>
      intro kv hkv
      simp only [stmt_ids_dotfree, Bool.and_eq_true] at hok
      unfold walk_stmt at hkv
      dsimp only at hkv
      rcases hrec : walk_body fp (pyJoin "." base ++ "." ++ name)
        (dinsert (pyJoin "." base ++ "." ++ name)
          (function_symbol fp (pyJoin "." base) name lineno col doc src) defs) body
        with ⟨d, ch⟩
      rw [hrec] at hkv
      dsimp only at hkv
      have hjoin : pyJoin "." base ++ "." ++ name = pyJoin "." (base ++ [name]) :=
        (pyJoin_append_singleton base name hb).symm
      have hkv' : kv ∈ (walk_body fp (pyJoin "." (base ++ [name]))
          (dinsert (pyJoin "." (base ++ [name]))
            (function_symbol fp (pyJoin "." base) name lineno col doc src) defs)
          body).1 := by
        rw [← hjoin, hrec]
        exact hkv
      rcases walk_body_quals fp (base ++ [name]) _ body (by simp) hok.2 kv hkv'
        with h1 | h2
      · rcases dinsert_mem _ _ _ kv h1 with h3 | h3
        · right
          refine ⟨[name], by simp, ?_, ?_⟩
          · intro x hx
            simp only [List.mem_singleton] at hx
            subst hx
            exact hok.1
          · rw [h3]
        · exact Or.inl h3
      · obtain ⟨l, hl, hlf, hkey⟩ := h2
        right
        refine ⟨name :: l, by simp, ?_, ?_⟩
        · intro x hx
          rcases List.mem_cons.mp hx with h4 | h4
          · subst h4
            exact hok.1
          · exact hlf x h4
        · rw [hkey]
          have : (base ++ [name]) ++ l = base ++ name :: l := by simp
          rw [this]
  | assign targets lineno col src ns =>
      intro kv hkv
      simp only [stmt_ids_dotfree] at hok
      exact assign_target_quals fp base lineno col src hb targets defs hok kv hkv
  | annAssign target ann lineno col src ns =>
      intro kv hkv
      cases target with
      | name id =>
          simp only [stmt_ids_dotfree, target_ids_dotfree] at hok
          unfold walk_stmt at hkv
          dsimp only at hkv
          rcases dinsert_mem _ _ _ kv hkv with h3 | h3
          · right
            refine ⟨[id], by simp, ?_, ?_⟩
            · intro x hx
              simp only [List.mem_singleton] at hx
              subst hx
              exact hok
            · rw [h3]
              exact (pyJoin_append_singleton base id hb).symm
          · exact Or.inl h3
      | other =>
          unfold walk_stmt at hkv
          exact Or.inl hkv
  | other ns =>
      intro kv hkv
      exact Or.inl hkv

theorem walk_body_quals (fp : PyPath) (base : List String)
    (defs : List (String × SymbolDefinition)) (body : List PyStmt)
    (hb : base ≠ []) (hok : body_ids_dotfree body = true) :
    ∀ kv ∈ (walk_body fp (pyJoin "." base) defs body).1,
      kv ∈ defs ∨ ∃ l, l ≠ [] ∧ (∀ x ∈ l, dotFreeB x = true) ∧
        kv.1 = pyJoin "." (base ++ l) := by
  cases body with
  | nil => intro kv hkv; exact Or.inl hkv
  | cons s rest =>
      intro kv hkv
      simp only [body_ids_dotfree, Bool.and_eq_true] at hok
      unfold walk_body at hkv
      dsimp only at hkv
      rcases hs : walk_stmt fp (pyJoin "." base) defs s with ⟨d1, ns⟩
      rw [hs] at hkv
      dsimp only at hkv
      rcases hb2 : walk_body fp (pyJoin "." base) d1 rest with ⟨d2, ms⟩
      rw [hb2] at hkv
      dsimp only at hkv
      have hkv' : kv ∈ (walk_body fp (pyJoin "." base) d1 rest).1 := by
        rw [hb2]
        exact hkv
      rcases walk_body_quals fp base d1 rest hb hok.2 kv hkv' with h1 | h2
      · have h1' : kv ∈ (walk_stmt fp (pyJoin "." base) defs s).1 := by
          rw [hs]
          exact h1
        exact walk_stmt_quals fp base defs s hb hok.1 kv h1'
      · exact Or.inr h2

end

theorem withSuffixStrippedParts_ne_nil (rel : PyPath) (h : rel ≠ []) :
    withSuffixStrippedParts rel ≠ [] := by
  unfold withSuffixStrippedParts
  cases rel with
  | nil => exact absurd rfl h
  | cons a r => simp

theorem drop_ne_nil_of_lt (root f : PyPath) (h : root.length < f.length) :
    f.drop root.length ≠ [] := by
  intro hc
  have := congrArg List.length hc
  simp only [List.length_drop, List.length_nil] at this
  omega

theorem compute_module_qualified_name_of_under_root (f root : PyPath)
    (hpre : root.isPrefixOf f = true) :
    compute_module_qualified_name f (some root) =
      pyJoin "." (withSuffixStrippedParts (f.drop root.length)) := by
  unfold compute_module_qualified_name
  dsimp only
  rw [if_pos hpre]

theorem parse_quals (root f : PyPath) (m : PyModuleSrc)
    (hpre : root.isPrefixOf f = true) (hlen : root.length < f.length)
    (hok : body_ids_dotfree m.body = true) :
    ∀ kv ∈ (parse_python_file f (some root) m).definitions,
      ∃ l, (∀ x ∈ l, dotFreeB x = true) ∧
        kv.1 = pyJoin "." (withSuffixStrippedParts (f.drop root.length) ++ l) := by
  intro kv hkv
  rw [parse_python_file_definitions,
    compute_module_qualified_name_of_under_root f root hpre] at hkv
  have hbase := withSuffixStrippedParts_ne_nil _ (drop_ne_nil_of_lt root f hlen)
  rcases walk_body_quals f (withSuffixStrippedParts (f.drop root.length)) _ m.body
      hbase hok kv hkv with h1 | h2
  · simp only [List.mem_singleton] at h1
    subst h1
    exact ⟨[], by simp, by simp⟩
  · obtain ⟨l, -, hlf, hkey⟩ := h2
    exact ⟨l, hlf, hkey⟩

/-- C4 (amended; as stated the claim is false, see the counterexample):
for two distinct files both strictly under the project root, whose
extension-stripped relative path components contain no dot, of which
neither one's extension-stripped relative path is a prefix of the other's,
and whose declared identifiers are dot-free (as Python's grammar
guarantees), no symbol definition produced for one file shares a
qualified name with a definition produced for the other — each file's
qualified names are rooted at its own module name. -/
theorem qualified_names_disjoint (root f1 f2 : PyPath) (m1 m2 : PyModuleSrc)
    (hpre1 : root.isPrefixOf f1 = true) (hlen1 : root.length < f1.length)
    (hpre2 : root.isPrefixOf f2 = true) (hlen2 : root.length < f2.length)
    (hdot1 : ∀ x ∈ withSuffixStrippedParts (f1.drop root.length), dotFreeB x = true)
    (hdot2 : ∀ x ∈ withSuffixStrippedParts (f2.drop root.length), dotFreeB x = true)
    (hids1 : body_ids_dotfree m1.body = true)
    (hids2 : body_ids_dotfree m2.body = true)
    (hnp12 : (withSuffixStrippedParts (f1.drop root.length)).isPrefixOf
      (withSuffixStrippedParts (f2.drop root.length)) = false)
    (hnp21 : (withSuffixStrippedParts (f2.drop root.length)).isPrefixOf
      (withSuffixStrippedParts (f1.drop root.length)) = false) :
    ∀ kv1 ∈ (parse_python_file f1 (some root) m1).definitions,
    ∀ kv2 ∈ (parse_python_file f2 (some root) m2).definitions,
      kv1.2.qualified_name ≠ kv2.2.qualified_name := by
  intro kv1 h1 kv2 h2 heq
  have hwf1 := parse_definitions_wf f1 (some root) m1 kv1 h1
  have hwf2 := parse_definitions_wf f2 (some root) m2 kv2 h2
  obtain ⟨l1, hl1f, hk1⟩ := parse_quals root f1 m1 hpre1 hlen1 hids1 kv1 h1
  obtain ⟨l2, hl2f, hk2⟩ := parse_quals root f2 m2 hpre2 hlen2 hids2 kv2 h2
  have hkeys : kv1.1 = kv2.1 := by rw [← hwf1, ← hwf2, heq]
  have hr1ne := withSuffixStrippedParts_ne_nil _ (drop_ne_nil_of_lt root f1 hlen1)
  have hr2ne := withSuffixStrippedParts_ne_nil _ (drop_ne_nil_of_lt root f2 hlen2)
  have hjoin : pyJoin "." (withSuffixStrippedParts (f1.drop root.length) ++ l1) =
      pyJoin "." (withSuffixStrippedParts (f2.drop root.length) ++ l2) := by
    rw [← hk1, ← hk2, hkeys]
  have hinj := pyJoin_dot_inj
    (withSuffixStrippedParts (f1.drop root.length) ++ l1)
    (withSuffixStrippedParts (f2.drop root.length) ++ l2)
    (by simp [hr1ne]) (by simp [hr2ne])
    (fun x hx => (List.mem_append.mp hx).elim (hdot1 x) (hl1f x))
    (fun x hx => (List.mem_append.mp hx).elim (hdot2 x) (hl2f x))
    hjoin
  have hp1 : withSuffixStrippedParts (f1.drop root.length) <+:
      withSuffixStrippedParts (f2.drop root.length) ++ l2 :=
    hinj ▸ List.prefix_append _ l1
  have hp2 : withSuffixStrippedParts (f2.drop root.length) <+:
      withSuffixStrippedParts (f2.drop root.length) ++ l2 :=
    List.prefix_append _ l2
  rcases List.prefix_or_prefix_of_prefix hp1 hp2 with hp | hp
  · have := List.isPrefixOf_iff_prefix.mpr hp
    rw [hnp12] at this
    exact absurd this (by simp)
  · have := List.isPrefixOf_iff_prefix.mpr hp
    rw [hnp21] at this
    exact absurd this (by simp)

/-- Witness for C4 (amended) at the collision-free two-file project: the
two util definitions of a1.py and a2.py do not share a qualified name. -/
theorem qualified_names_disjoint_witness :
    ("a1.util", c6D) ∈ (parse_python_file c6P1 (some ["p"]) c6M1).definitions ∧
    ("a2.util", c6D2) ∈ (parse_python_file c6P2 (some ["p"]) c6M2).definitions ∧
    ("a1.util", c6D).2.qualified_name ≠ ("a2.util", c6D2).2.qualified_name := by
  refine ⟨by decide, by decide, ?_⟩
  exact qualified_names_disjoint ["p"] c6P1 c6P2 c6M1 c6M2 (by decide) (by decide)
    (by decide) (by decide) (by decide) (by decide) (by decide) (by decide)
    (by decide) (by decide) ("a1.util", c6D) (by decide) ("a2.util", c6D2) (by decide)

end PyLsp
